import Mathlib

/-
  Verification of the bytecode-analysis core of the defi-analyser repository.

  The embedding follows `src/core/analyzers/bytecode_analyzer.py` and
  `src/core/analyzers/advanced_proxy_analyzer.py`.  Several helpers those
  files call (`_decode_instruction`, `_identify_basic_blocks`,
  `_handle_branch`, the per-rule security checkers, ...) are referenced by
  the source but are not defined anywhere under src/; where a claim depends
  on such a helper, the definition below is modelled from the spec and its
  doc comment says so explicitly.
-/

namespace BytecodeAnalysis

/-- Modelled from the spec: §3 `Instruction` record
`{offset, opcode, immediate: Option<Bytes>, size}` (the decoder
`SymbolicExecutor._decode_instruction` is called at
bytecode_analyzer.py:411 but absent from src).  The immediate is the
(zero-padded) PUSH payload; `size` is the number of bytes the instruction
actually occupies in the code. -/
structure Instruction where
  offset : Nat
  opcode : Nat
  immediate : List Nat
  size : Nat
deriving Repr, DecidableEq

/-- Number of immediate bytes an opcode consumes: PUSH1..PUSH32 are
0x60..0x7f and consume `opcode - 0x5f` bytes; every other opcode consumes
none (spec §4.1). -/
def pushBytes (op : Nat) : Nat :=
  if 0x60 ≤ op ∧ op ≤ 0x7f then op - 0x5f else 0

/-- Modelled from the spec: §4.1 Disassembler decode step, absent from
src.  PUSH immediates are clipped at end-of-code and the immediate value
is zero-padded; unknown opcode bytes decode as a single one-byte
instruction rather than an error. -/
def decodeInstruction (code : List Nat) (pc : Nat) : Instruction :=
  let op := code.getD pc 0
  let n := pushBytes op
  let avail := code.length - (pc + 1)
  { offset := pc
    opcode := op
    immediate := (code.drop (pc + 1)).take n ++ List.replicate (n - avail) 0
    size := 1 + min n avail }

/-- The pc-advance loop of `SymbolicExecutor._execute_path`
(bytecode_analyzer.py:410-429): decode at `pc`, then `pc += instruction.size`,
until `pc` passes the end of the code.  This is the instruction stream the
spec's Disassembler (§4.1) produces. -/
def disasmFrom (code : List Nat) (pc : Nat) : List Instruction :=
  if _h : pc < code.length then
    decodeInstruction code pc ::
      disasmFrom code (pc + (decodeInstruction code pc).size)
  else []
termination_by code.length - pc
decreasing_by
  simp only [decodeInstruction]
  omega

/-- Full disassembly of a byte sequence, starting at offset 0. -/
def disassemble (code : List Nat) : List Instruction := disasmFrom code 0

/-- The byte range `[offset, offset + size)` an instruction covers. -/
def instructionBytes (i : Instruction) : List Nat := List.range' i.offset i.size

/-! Basic blocks and the control-flow graph.  `ControlFlowAnalyzer.build_cfg`
(bytecode_analyzer.py:510-525) partitions the instruction stream into basic
blocks and connects them; the helpers it calls (`_identify_basic_blocks`,
`_find_successors`) are absent from src, so the partitioning and successor
rules below are modelled from spec §4.2. -/

/-- Terminator opcodes after which a new basic block starts (spec §4.2):
JUMP 0x56, JUMPI 0x57, STOP 0x00, RETURN 0xf3, REVERT 0xfd,
SELFDESTRUCT 0xff, INVALID 0xfe. -/
def isBlockEnd (op : Nat) : Bool :=
  op == 0x00 || op == 0x56 || op == 0x57 || op == 0xf3 || op == 0xfd ||
    op == 0xfe || op == 0xff

def isPushOp (op : Nat) : Bool := 0x60 ≤ op && op ≤ 0x7f

/-- Offsets of all JUMPDEST (0x5b) instructions in the stream. -/
def jumpdestOffsets (code : List Nat) : List Nat :=
  (disassemble code).filterMap fun i =>
    if i.opcode = 0x5b then some i.offset else none

/-- Offsets of all decoded instructions. -/
def instrOffsets (code : List Nat) : List Nat :=
  (disassemble code).map Instruction.offset

/-- Modelled from the spec: §4.2 — a new block starts at offset 0, at every
JUMPDEST, and immediately after any terminator instruction. -/
def blockStarts (code : List Nat) : List Nat :=
  0 :: jumpdestOffsets code ++
    (disassemble code).filterMap fun i =>
      if isBlockEnd i.opcode ∧ i.offset + i.size < code.length then
        some (i.offset + i.size)
      else none

/-- Cut the instruction stream into maximal runs: a new run starts before
every instruction whose offset is a block start. -/
def splitBlocks (starts : List Nat) (instrs : List Instruction) :
    List (List Instruction) :=
  instrs.foldr
    (fun i acc =>
      match acc with
      | [] => [[i]]
      | b :: bs =>
        match b.head? with
        | some j => if j.offset ∈ starts then [i] :: b :: bs else (i :: b) :: bs
        | none => [i] :: bs)
    []

/-- Modelled from the spec: §3 `BasicBlock` (start offset plus owned
instruction run). -/
structure BasicBlock where
  startOff : Nat
  instrs : List Instruction
deriving Repr, DecidableEq

def blocksOf (code : List Nat) : List BasicBlock :=
  (splitBlocks (blockStarts code) (disassemble code)).map fun b =>
    { startOff := match b.head? with
        | some j => j.offset
        | none => 0
      instrs := b }

inductive FaultReason
  | invalidTarget
  | indirectJump
  | invalidOpcode
  | stackOverflow
  | stackUnderflow
deriving Repr, DecidableEq

/-- A CFG edge: a statically resolved jump edge, a fallthrough /
JUMPI-false edge, a conservative successor of an indirect jump, or a
fault terminator edge. -/
inductive Edge
  | jumpTo (t : Nat)
  | fallTo (t : Nat)
  | conservativeTo (t : Nat)
  | faultEdge (r : FaultReason)
deriving Repr, DecidableEq

/-- Big-endian value of a PUSH immediate. -/
def pushValue (i : Instruction) : Nat :=
  i.immediate.foldl (fun a b => a * 256 + b) 0

/-- The statically known jump target of a block: the value of a PUSH
instruction immediately preceding the block's final JUMP/JUMPI
(spec §4.2, the direct-jump pattern). -/
def staticJumpTarget (b : BasicBlock) : Option Nat :=
  match b.instrs.dropLast.getLast? with
  | some p => if isPushOp p.opcode then some (pushValue p) else none
  | none => none

/-- Modelled from the spec: §4.2 successor computation
(`ControlFlowAnalyzer._find_successors`, absent from src).  A resolved
JUMP/JUMPI target must be an existing JUMPDEST offset, otherwise the edge
is `Fault(InvalidTarget)`; an indirect jump yields `Fault(IndirectJump)`
plus every JUMPDEST-headed block as conservative successor; fallthrough
goes to the next block start when one exists. -/
def blockEdges (code : List Nat) (b : BasicBlock) : List Edge :=
  match b.instrs.getLast? with
  | none => []
  | some last =>
    let nextOff := last.offset + last.size
    let fall :=
      if nextOff ∈ blockStarts code ∧ nextOff < code.length then
        [Edge.fallTo nextOff]
      else []
    let resolved :=
      match staticJumpTarget b with
      | some t =>
        if t ∈ jumpdestOffsets code then [Edge.jumpTo t]
        else [Edge.faultEdge FaultReason.invalidTarget]
      | none =>
        Edge.faultEdge FaultReason.indirectJump ::
          (jumpdestOffsets code).map Edge.conservativeTo
    if last.opcode = 0x56 then resolved
    else if last.opcode = 0x57 then resolved ++ fall
    else if isBlockEnd last.opcode then []
    else fall

/-- The CFG class (bytecode_analyzer.py:564-591): block list plus an edge
map keyed by block id, entry at offset 0. -/
structure CFG where
  blocks : List BasicBlock
  edges : List (Nat × List Edge)
  entry : Nat
deriving Repr, DecidableEq

/-- `ControlFlowAnalyzer.build_cfg` (bytecode_analyzer.py:510-525):
identify basic blocks, then record each block with its successors. -/
def buildCFG (code : List Nat) : CFG :=
  { blocks := blocksOf code
    edges := (blocksOf code).map fun b => (b.startOff, blockEdges code b)
    entry := 0 }

/-- An instruction at offset `t` exists and is a JUMPDEST. -/
def jumpdestHeaded (code : List Nat) (t : Nat) : Bool :=
  (disassemble code).any fun i => i.offset == t && i.opcode == 0x5b

/-- The jump-validity property exactly as the spec's §8 states it for one
edge: the edge is a fault edge, or its target block is JUMPDEST-headed. -/
def edgeClaimOk (code : List Nat) (e : Edge) : Bool :=
  match e with
  | Edge.faultEdge _ => true
  | Edge.jumpTo t => jumpdestHeaded code t
  | Edge.fallTo t => jumpdestHeaded code t
  | Edge.conservativeTo t => jumpdestHeaded code t

/-! The symbolic executor.  `SymbolicExecutor.explore_paths` /
`_execute_path` (bytecode_analyzer.py:333-353, 397-431) drive execution,
but the per-instruction handlers (`_handle_branch`, `_handle_storage`,
`_handle_call`) and the stack-limit enforcement are absent from src; the
instruction semantics below are modelled from spec §4.4. -/

/-- Modelled from the spec: §3 `SymbolicValue` tagged union
`Concrete(U256) | Symbolic(VarId) | Expr(Op, args)` (binary form). -/
inductive SymVal
  | concrete (v : Nat)
  | symbolic (id : Nat)
  | expr (op : Nat) (a b : SymVal)
deriving Repr, DecidableEq

/-- Modelled from the spec: §3 `ExecutionState`.  The `state` dict of
`SymbolicExecutor.explore_paths` (bytecode_analyzer.py:339-345) holds
`pc`, `stack`, `memory`, `storage`, `path_condition`; the memory map and
path condition are never consulted by the modelled operations and are
omitted; `fresh` numbers newly created symbolic result values. -/
structure ExecState where
  pc : Nat
  stack : List SymVal
  storage : List (Nat × SymVal)
  fresh : Nat
deriving Repr, DecidableEq

/-- Swap the first and the (n+1)-st element of a list. -/
def swapTop (n : Nat) (l : List SymVal) : List SymVal :=
  (l.set 0 (l.getD n (SymVal.concrete 0))).set n (l.getD 0 (SymVal.concrete 0))

/-- Modelled from the spec: §4.4 per-opcode stack effect of the EVM
instruction set — the number of operands popped and the list of values
pushed.  `none` means an unknown/INVALID opcode.  Environment reads,
memory loads, keccak and call results are fresh symbolic values; PUSH
pushes its concrete immediate; DUPn/SWAPn rearrange the top of the
stack. -/
def opEffect (i : Instruction) (stk : List SymVal) (fresh : Nat) :
    Option (Nat × List SymVal) :=
  let op := i.opcode
  let c0 := SymVal.concrete 0
  let s0 := stk.getD 0 c0
  let s1 := stk.getD 1 c0
  if op = 0x00 then some (0, [])
  else if 0x01 ≤ op ∧ op ≤ 0x07 then some (2, [SymVal.expr op s0 s1])
  else if op = 0x08 ∨ op = 0x09 then some (3, [SymVal.expr op s0 s1])
  else if op = 0x0a ∨ op = 0x0b then some (2, [SymVal.expr op s0 s1])
  else if 0x10 ≤ op ∧ op ≤ 0x14 then some (2, [SymVal.expr op s0 s1])
  else if op = 0x15 then some (1, [SymVal.expr op s0 c0])
  else if 0x16 ≤ op ∧ op ≤ 0x18 then some (2, [SymVal.expr op s0 s1])
  else if op = 0x19 then some (1, [SymVal.expr op s0 c0])
  else if 0x1a ≤ op ∧ op ≤ 0x1d then some (2, [SymVal.expr op s0 s1])
  else if op = 0x20 then some (2, [SymVal.symbolic fresh])
  else if op = 0x30 then some (0, [SymVal.symbolic fresh])
  else if op = 0x31 then some (1, [SymVal.symbolic fresh])
  else if 0x32 ≤ op ∧ op ≤ 0x34 then some (0, [SymVal.symbolic fresh])
  else if op = 0x35 then some (1, [SymVal.symbolic fresh])
  else if op = 0x36 then some (0, [SymVal.symbolic fresh])
  else if op = 0x37 then some (3, [])
  else if op = 0x38 then some (0, [SymVal.symbolic fresh])
  else if op = 0x39 then some (3, [])
  else if op = 0x3a then some (0, [SymVal.symbolic fresh])
  else if op = 0x3b then some (1, [SymVal.symbolic fresh])
  else if op = 0x3c then some (4, [])
  else if op = 0x3d then some (0, [SymVal.symbolic fresh])
  else if op = 0x3e then some (3, [])
  else if op = 0x3f then some (1, [SymVal.symbolic fresh])
  else if op = 0x40 then some (1, [SymVal.symbolic fresh])
  else if 0x41 ≤ op ∧ op ≤ 0x48 then some (0, [SymVal.symbolic fresh])
  else if op = 0x50 then some (1, [])
  else if op = 0x51 then some (1, [SymVal.symbolic fresh])
  else if op = 0x52 ∨ op = 0x53 then some (2, [])
  else if op = 0x54 then some (1, [SymVal.symbolic fresh])
  else if op = 0x55 then some (2, [])
  else if op = 0x56 then some (1, [])
  else if op = 0x57 then some (2, [])
  else if 0x58 ≤ op ∧ op ≤ 0x5a then some (0, [SymVal.symbolic fresh])
  else if op = 0x5b then some (0, [])
  else if 0x60 ≤ op ∧ op ≤ 0x7f then some (0, [SymVal.concrete (pushValue i)])
  else if 0x80 ≤ op ∧ op ≤ 0x8f then
    some (op - 0x7f, stk.getD (op - 0x80) c0 :: stk.take (op - 0x7f))
  else if 0x90 ≤ op ∧ op ≤ 0x9f then
    some (op - 0x8f + 1, swapTop (op - 0x8f) (stk.take (op - 0x8f + 1)))
  else if 0xa0 ≤ op ∧ op ≤ 0xa4 then some (op - 0xa0 + 2, [])
  else if op = 0xf0 then some (3, [SymVal.symbolic fresh])
  else if op = 0xf1 ∨ op = 0xf2 then some (7, [SymVal.symbolic fresh])
  else if op = 0xf3 then some (2, [])
  else if op = 0xf4 then some (6, [SymVal.symbolic fresh])
  else if op = 0xf5 then some (4, [SymVal.symbolic fresh])
  else if op = 0xfa then some (6, [SymVal.symbolic fresh])
  else if op = 0xfd then some (2, [])
  else if op = 0xff then some (1, [])
  else none

/-- The result of executing one instruction on a symbolic state
(spec §4.4 state machine: continue, terminate, branch, or fault). -/
inductive StepResult
  | next (st : ExecState)
  | halted
  | reverted
  | selfdestructed
  | fault (r : FaultReason)
  | jump (t : SymVal) (st : ExecState)
  | jumpi (t c : SymVal) (st : ExecState)
deriving Repr, DecidableEq

/-- Modelled from the spec: §4.4 — one instruction step.  A pop from
fewer elements than required faults with `StackUnderflow`; a write that
would leave more than 1024 elements faults with `StackOverflow`; both
terminate the path.  Otherwise the stack is rewritten, SSTORE with a
concrete key updates the storage map, and terminators/jumps are
signalled to the caller (`SymbolicExecutor._execute_path` dispatches
JUMP/JUMPI, SSTORE/SLOAD and CALL handling at
bytecode_analyzer.py:413-426). -/
def stepGuarded (st : ExecState) (i : Instruction) (pops : Nat)
    (pushed : List SymVal) : StepResult :=
  if st.stack.length < pops then StepResult.fault FaultReason.stackUnderflow
  else if 1024 < st.stack.length - pops + pushed.length then
    StepResult.fault FaultReason.stackOverflow
  else
    let st' : ExecState :=
      { pc := i.offset + i.size
        stack := pushed ++ st.stack.drop pops
        storage :=
          if i.opcode = 0x55 then
            match st.stack.getD 0 (SymVal.concrete 0) with
            | SymVal.concrete k =>
              (k, st.stack.getD 1 (SymVal.concrete 0)) :: st.storage
            | _ => st.storage
          else st.storage
        fresh := st.fresh + 1 }
    if i.opcode = 0x00 then StepResult.halted
    else if i.opcode = 0xf3 then StepResult.halted
    else if i.opcode = 0xfd then StepResult.reverted
    else if i.opcode = 0xff then StepResult.selfdestructed
    else if i.opcode = 0x56 then
      StepResult.jump (st.stack.getD 0 (SymVal.concrete 0)) st'
    else if i.opcode = 0x57 then
      StepResult.jumpi (st.stack.getD 0 (SymVal.concrete 0))
        (st.stack.getD 1 (SymVal.concrete 0)) st'
    else StepResult.next st'

def stepInstr (st : ExecState) (i : Instruction) : StepResult :=
  match opEffect i st.stack st.fresh with
  | none => StepResult.fault FaultReason.invalidOpcode
  | some (pops, pushed) => stepGuarded st i pops pushed

/-- How a straight-line run ends: a terminator, a fault, a branch
instruction handing its (possibly symbolic) target back to the explorer,
or fuel exhaustion. -/
inductive PathEnd
  | halted
  | reverted
  | selfdestructed
  | fault (r : FaultReason)
  | jumped (t : SymVal) (st : ExecState)
  | jumpied (t c : SymVal) (st : ExecState)
  | outOfFuel
deriving Repr, DecidableEq

/-- The straight-line path loop of `SymbolicExecutor._execute_path`
(bytecode_analyzer.py:410-429): decode at `pc`, step, advance
`pc += instruction.size`, break on a branch; running past the end of the
code halts.  Returns the visited states and how the run ended. -/
def execPath (code : List Nat) : Nat → ExecState → List ExecState × PathEnd
  | 0, st => ([st], PathEnd.outOfFuel)
  | fuel + 1, st =>
    if st.pc < code.length then
      match stepInstr st (decodeInstruction code st.pc) with
      | StepResult.next st' =>
        (st :: (execPath code fuel st').1, (execPath code fuel st').2)
      | StepResult.halted => ([st], PathEnd.halted)
      | StepResult.reverted => ([st], PathEnd.reverted)
      | StepResult.selfdestructed => ([st], PathEnd.selfdestructed)
      | StepResult.fault r => ([st], PathEnd.fault r)
      | StepResult.jump t st' => ([st], PathEnd.jumped t st')
      | StepResult.jumpi t c st' => ([st], PathEnd.jumpied t c st')
    else ([st], PathEnd.halted)

/-- The successor state a step result carries, when it carries one. -/
def resultState : StepResult → Option ExecState
  | StepResult.next st => some st
  | StepResult.jump _ st => some st
  | StepResult.jumpi _ _ st => some st
  | _ => none

/-- Modelled from the spec: §4.4 abandonment reasons
`BudgetExceeded | LoopBound | SolverTimeout`. -/
inductive AbandonReason
  | loopBound
  | budgetExceeded
  | solverTimeout
deriving Repr, DecidableEq

/-- How a sealed path ended (spec §4.4:
`Terminated(Halt|Revert|Fault) | Abandoned(...)`). -/
inductive PathOutcome
  | halted
  | reverted
  | selfdestructed
  | fault (r : FaultReason)
  | abandoned (r : AbandonReason)
deriving Repr, DecidableEq

/-- Modelled from the spec: §3 `Path` — the block sequence a path took
and how it was sealed (final state and effects are carried by the
executor states and omitted from the sealed record). -/
structure Path where
  blockSeq : List Nat
  outcome : PathOutcome
deriving Repr, DecidableEq

/-- In-flight exploration state of one path: the machine state, the
per-block visit counters, and the blocks entered so far. -/
structure PathState where
  st : ExecState
  visits : List (Nat × Nat)
  blockSeq : List Nat
deriving Repr, DecidableEq

/-- How many times a block offset has been entered on this path. -/
def visitCount (visits : List (Nat × Nat)) (b : Nat) : Nat :=
  match visits.find? (fun p => p.1 == b) with
  | some p => p.2
  | none => 0

/-- Record one more entry into block `b` (the new entry shadows older
ones). -/
def bumpVisit (visits : List (Nat × Nat)) (b : Nat) : List (Nat × Nat) :=
  (b, visitCount visits b + 1) :: visits

/-- The concrete value of a symbolic word, when it has one. -/
def concreteOf : SymVal → Option Nat
  | SymVal.concrete v => some v
  | _ => none

/-- Modelled from the spec: §4.4 bounded depth-first path exploration
(`SymbolicExecutor.explore_paths`, bytecode_analyzer.py:333-353, whose
work-list predicate `_has_unexplored_paths` is absent from src).  One
block (superblock) is run straight-line by `execPath`; a resolved
concrete jump target must be a JUMPDEST; at a JUMPI both branches are
explored (the solver abstraction is conservative: both branches
satisfiable); entering a block already visited `cap` times on this path
seals it as `Abandoned(LoopBound)`.  Recursion is well-founded on the
remaining visit budget, so exploration terminates for every bytecode,
cyclic control flow included. -/
def explorePS (code : List Nat) (cap : Nat) (ps : PathState) : List Path :=
  if code.length ≤ ps.st.pc then
    [{ blockSeq := ps.blockSeq, outcome := PathOutcome.halted }]
  else if hpc : ps.st.pc ∈ blockStarts code then
    if hcap : cap ≤ visitCount ps.visits ps.st.pc then
      [{ blockSeq := ps.blockSeq,
         outcome := PathOutcome.abandoned AbandonReason.loopBound }]
    else
      match (execPath code (code.length + 1) ps.st).2 with
      | PathEnd.halted =>
        [{ blockSeq := ps.blockSeq ++ [ps.st.pc], outcome := PathOutcome.halted }]
      | PathEnd.reverted =>
        [{ blockSeq := ps.blockSeq ++ [ps.st.pc], outcome := PathOutcome.reverted }]
      | PathEnd.selfdestructed =>
        [{ blockSeq := ps.blockSeq ++ [ps.st.pc],
           outcome := PathOutcome.selfdestructed }]
      | PathEnd.fault r =>
        [{ blockSeq := ps.blockSeq ++ [ps.st.pc], outcome := PathOutcome.fault r }]
      | PathEnd.outOfFuel =>
        [{ blockSeq := ps.blockSeq ++ [ps.st.pc],
           outcome := PathOutcome.abandoned AbandonReason.budgetExceeded }]
      | PathEnd.jumped t st' =>
        match concreteOf t with
        | some v =>
          if v ∈ jumpdestOffsets code then
            explorePS code cap
              ⟨{ st' with pc := v }, bumpVisit ps.visits ps.st.pc,
                ps.blockSeq ++ [ps.st.pc]⟩
          else
            [{ blockSeq := ps.blockSeq ++ [ps.st.pc],
               outcome := PathOutcome.fault FaultReason.invalidTarget }]
        | none =>
          [{ blockSeq := ps.blockSeq ++ [ps.st.pc],
             outcome := PathOutcome.fault FaultReason.indirectJump }]
      | PathEnd.jumpied t _c st' =>
        (match concreteOf t with
         | some v =>
           if v ∈ jumpdestOffsets code then
             explorePS code cap
               ⟨{ st' with pc := v }, bumpVisit ps.visits ps.st.pc,
                 ps.blockSeq ++ [ps.st.pc]⟩
           else
             [{ blockSeq := ps.blockSeq ++ [ps.st.pc],
                outcome := PathOutcome.fault FaultReason.invalidTarget }]
         | none =>
           [{ blockSeq := ps.blockSeq ++ [ps.st.pc],
              outcome := PathOutcome.fault FaultReason.indirectJump }]) ++
        explorePS code cap
          ⟨st', bumpVisit ps.visits ps.st.pc, ps.blockSeq ++ [ps.st.pc]⟩
  else
    [{ blockSeq := ps.blockSeq,
       outcome := PathOutcome.fault FaultReason.invalidTarget }]
termination_by
  ((blockStarts code).map (fun x => cap + 1 - visitCount ps.visits x)).sum
decreasing_by
  all_goals
    have hself : ∀ (v : List (Nat × Nat)) (b : Nat),
        visitCount (bumpVisit v b) b = visitCount v b + 1 := by
      intro v b
      simp [visitCount, bumpVisit, List.find?_cons_of_pos]
    have hother : ∀ (v : List (Nat × Nat)) (b x : Nat), x ≠ b →
        visitCount (bumpVisit v b) x = visitCount v x := by
      intro v b x hne
      have : ((fun p => p.1 == x) ((b, visitCount v b + 1) : Nat × Nat)) = false := by
        simp
        exact fun h => absurd h.symm hne
      simp [visitCount, bumpVisit, List.find?_cons_of_neg, this]
    refine List.sum_lt_sum _ _ ?_ ?_
    · intro x _hx
      by_cases hxb : x = ps.st.pc
      · subst hxb
        rw [hself]
        omega
      · rw [hother _ _ _ hxb]
    · refine ⟨ps.st.pc, hpc, ?_⟩
      rw [hself]
      omega

/-- `SymbolicExecutor.explore_paths` (bytecode_analyzer.py:333-353):
explore every bounded path from the entry block at offset 0 with an
empty stack and storage. -/
def exploreAll (code : List Nat) (cap : Nat) : List Path :=
  explorePS code cap ⟨⟨0, [], [], 0⟩, [], []⟩

/-- The sealed outcome of a non-branching run end. -/
def sealOf : PathEnd → Option PathOutcome
  | PathEnd.halted => some PathOutcome.halted
  | PathEnd.reverted => some PathOutcome.reverted
  | PathEnd.selfdestructed => some PathOutcome.selfdestructed
  | PathEnd.fault r => some (PathOutcome.fault r)
  | PathEnd.outOfFuel => some (PathOutcome.abandoned AbandonReason.budgetExceeded)
  | PathEnd.jumped _ _ => none
  | PathEnd.jumpied _ _ _ => none

/-! Findings, deduplicating aggregation and the risk score (spec §3, §4.6,
§4.7).  `BytecodeAnalyzer._enhanced_security_scan`
(bytecode_analyzer.py:290-312) collects per-check results; the
deduplication by `(kind, location)` keeping the highest-confidence
instance, and the saturating risk score (`_calculate_risk_score`), are
absent from src and modelled from spec §4.7.  Severity and confidence
are scaled to basis points of the spec's `[0, 1]` floats. -/

/-- Modelled from the spec: §3 closed `FindingKind` enum. -/
inductive FindingKind
  | reentrancy
  | uncheckedExternalCall
  | integerOverflow
  | accessControlGap
  | unboundedLoop
  | invalidJumpTarget
  | storageCollision
  | selfdestructReachable
  | timestampDependency
  | arbitraryJump
  | dosViaGas
  | frontRunnable
deriving Repr, DecidableEq

/-- Modelled from the spec: §3 `VulnerabilityFinding` (severity and
confidence in basis points; `desc` is the evidence/description id). -/
structure Finding where
  kind : FindingKind
  location : Nat
  severity : Nat
  confidence : Nat
  desc : Nat
deriving Repr, DecidableEq

/-- The dedup identity of a finding (spec §4.7: `(kind, location)`). -/
def findingKey (f : Finding) : FindingKind × Nat := (f.kind, f.location)

/-- Modelled from the spec: §4.7 "keeping the highest-confidence
instance", completed to a strict total precedence on same-key findings
(confidence first, then severity, then evidence id) so the kept instance
is well defined on ties. -/
def betterFinding (f g : Finding) : Prop :=
  g.confidence < f.confidence ∨
    (g.confidence = f.confidence ∧
      (g.severity < f.severity ∨
        (g.severity = f.severity ∧ g.desc < f.desc)))

instance (f g : Finding) : Decidable (betterFinding f g) := by
  unfold betterFinding
  infer_instance

/-- Merge one incoming finding into an incumbent report entry: the
incoming finding replaces an incumbent with the same key over which it
takes precedence. -/
def mergeInto (f g : Finding) : Finding :=
  if findingKey g = findingKey f ∧ betterFinding f g then f else g

/-- Modelled from the spec: §4.7 aggregator merge — deduplicate by
`(kind, location)`: if the report already has an entry with the incoming
finding's key, the better of the two is kept, otherwise the finding is
appended. -/
def mergeFinding (report : List Finding) (f : Finding) : List Finding :=
  if ∃ g ∈ report, findingKey g = findingKey f then report.map (mergeInto f)
  else report ++ [f]

/-- Fold a finding stream into a deduplicated report. -/
def aggregate (l : List Finding) : List Finding := l.foldl mergeFinding []

/-- A report holds no two findings with the same `(kind, location)`. -/
def reportNodupKeys (r : List Finding) : Prop :=
  r.Pairwise (fun f g => findingKey f ≠ findingKey g)

/-- Modelled from the spec: §4.7 risk score — a monotonic saturating
combination of the deduplicated findings' weighted severities, capped at
1.0 (= 10000 basis points). -/
def riskScore (r : List Finding) : Nat :=
  min 10000 ((r.map fun f => f.severity * f.confidence / 10000).sum)

/-- Spec §4.6 detector on a sealed path: any `Fault(InvalidTarget)` or
`Fault(IndirectJump)` outcome yields an invalid-jump / arbitrary-jump
finding at the path's last block, and a reachable SELFDESTRUCT is
reported (severity/confidence are the per-rule constants). -/
def pathFindings (p : Path) : List Finding :=
  match p.outcome with
  | PathOutcome.fault FaultReason.invalidTarget =>
    [⟨FindingKind.invalidJumpTarget, p.blockSeq.getLastD 0, 8000, 9000, 0⟩]
  | PathOutcome.fault FaultReason.indirectJump =>
    [⟨FindingKind.arbitraryJump, p.blockSeq.getLastD 0, 7000, 8000, 0⟩]
  | PathOutcome.selfdestructed =>
    [⟨FindingKind.selfdestructReachable, p.blockSeq.getLastD 0, 9000, 9000, 0⟩]
  | _ => []

/-- The analysis report: deduplicated findings plus the risk score. -/
structure Report where
  findings : List Finding
  risk : Nat
deriving Repr, DecidableEq

/-- Build the report from the finding stream in the order the scheduler
delivered the explored paths (spec §5: findings are merged by identity,
not by arrival order). -/
def buildReport (l : List Finding) : Report :=
  ⟨aggregate l, riskScore (aggregate l)⟩

/-! The security-scan loop, the public entry point and its cache
(`BytecodeAnalyzer._enhanced_security_scan`, bytecode_analyzer.py:234-312,
and `BytecodeAnalyzer.analyze_bytecode`, bytecode_analyzer.py:60-149). -/

/-- One security check's result dict (the checker bodies are absent from
src; only `vulnerable` is inspected by the scan loop at line 299;
severity/confidence feed the risk score). -/
structure CheckResult where
  vulnerable : Bool
  severity : Nat
  confidence : Nat
deriving Repr, DecidableEq

/-- Modelled from the spec: §4.7 risk score over check results
(`_calculate_risk_score`, called at bytecode_analyzer.py:307, is absent
from src): a saturating weighted sum over the vulnerable checks. -/
def scanRiskScore (results : List (String × CheckResult)) : Nat :=
  min 10000 ((results.map fun p =>
    if p.2.vulnerable then p.2.severity * p.2.confidence / 10000 else 0).sum)

/-- The aggregated scan output (bytecode_analyzer.py:304-312; the fields
built by missing helpers are omitted). -/
structure ScanReport where
  checkResults : List (String × CheckResult)
  vulnerabilities : List CheckResult
  riskScore : Nat
deriving Repr, DecidableEq

/-- The scan loop of `_enhanced_security_scan`
(bytecode_analyzer.py:290-302): every check runs inside its own
try/except — a failing check is logged and skipped, the loop continues;
a successful check is recorded, and recorded among the vulnerabilities
when its result says so.  A checker's outcome (the checker bodies are
absent from src) is an `Except`: `error` models a raised exception. -/
def enhancedSecurityScan (outcomes : List (String × Except String CheckResult)) :
    ScanReport :=
  let results := outcomes.filterMap fun p =>
    match p.2 with
    | Except.ok r => some (p.1, r)
    | Except.error _ => none
  { checkResults := results
    vulnerabilities := (results.map Prod.snd).filter (fun r => r.vulnerable)
    riskScore := scanRiskScore results }

/-- The value `analyze_bytecode` returns: always a dict — either the
analysis dict or a dict carrying an `'error'` key
(bytecode_analyzer.py:75, 149); the analysis payload is abstracted to an
id. -/
inductive AnalysisResult
  | errorDict (msg : String)
  | report (a : Nat)
deriving Repr, DecidableEq

/-- The result dict carries an `'error'` key. -/
def hasErrorKey : AnalysisResult → Bool
  | AnalysisResult.errorDict _ => true
  | AnalysisResult.report _ => false

/-- The in-process cache dict (`self.cache`, bytecode_analyzer.py:58),
keyed by `f"{contract_address}_{deep_analysis}"` (line 64). -/
def cacheLookup (cache : List ((String × Bool) × Nat)) (k : String × Bool) :
    Option Nat :=
  match cache.find? (fun p => p.1 == k) with
  | some p => some p.2
  | none => none

/-- `BytecodeAnalyzer.analyze_bytecode` (bytecode_analyzer.py:60-149):
cache check first (63-66); empty fetched code returns
`{'error': 'No bytecode found'}` (74-75); the analysis pipeline
(77-141) is abstracted by its outcome `pipeline` — any exception raised
inside the `try` is caught at 147-149 and returned as
`{'error': str(e)}`; a successful analysis is written to the cache
(143-145) and returned. -/
def analyzeBytecode (cache : List ((String × Bool) × Nat)) (addr : String)
    (deep : Bool) (code : List Nat) (pipeline : Except String Nat) :
    AnalysisResult × List ((String × Bool) × Nat) :=
  match cacheLookup cache (addr, deep) with
  | some a => (AnalysisResult.report a, cache)
  | none =>
    if code = [] then (AnalysisResult.errorDict "No bytecode found", cache)
    else
      match pipeline with
      | Except.error e => (AnalysisResult.errorDict e, cache)
      | Except.ok a => (AnalysisResult.report a, ((addr, deep), a) :: cache)

/-! Storage-collision comparison
(`AdvancedProxyAnalyzer._check_storage_collisions`,
advanced_proxy_analyzer.py:128-158). -/

/-- Modelled from the spec: §3 `inferred_shape ∈ Scalar|Array|Mapping|Unknown`. -/
inductive SlotShape
  | scalar
  | array
  | mapping
  | unknown
deriving Repr, DecidableEq

/-- One direct collision record
(advanced_proxy_analyzer.py:142-146: slot, proxy usage, impl usage). -/
structure Collision where
  slot : Nat
  proxyUsage : SlotShape
  implUsage : SlotShape
deriving Repr, DecidableEq

/-- The collision dict (advanced_proxy_analyzer.py:130-134). -/
structure CollisionReport where
  directCollisions : List Collision
  potentialCollisions : List Collision
  riskLevel : String
deriving Repr, DecidableEq

/-- `AdvancedProxyAnalyzer._check_storage_collisions`
(advanced_proxy_analyzer.py:128-158): a pure function of the two slot
dictionaries (the `_get_*_storage_slots` projections, absent from src,
are modelled as the identity on the supplied slot sets).  Every proxy
slot present in the implementation set yields one direct collision
record; potential collisions concern symbolic (keccak / base+index
derived) slot expressions (spec §4.5) and are empty for the concrete
slot sets modelled here (`_check_potential_collisions` is absent from
src); any direct collision raises the risk level to HIGH. -/
def checkStorageCollisions (proxySlots implSlots : List (Nat × SlotShape)) :
    CollisionReport :=
  let direct := proxySlots.filterMap fun p =>
    match implSlots.find? (fun q => q.1 == p.1) with
    | some q => some (⟨p.1, p.2, q.2⟩ : Collision)
    | none => none
  let potential : List Collision := []
  { directCollisions := direct
    potentialCollisions := potential
    riskLevel :=
      if direct ≠ [] then "HIGH"
      else if potential ≠ [] then "MEDIUM"
      else "LOW" }

theorem decodeInstruction_size_pos (code : List Nat) (pc : Nat) :
    1 ≤ (decodeInstruction code pc).size := by
  simp [decodeInstruction]

theorem decodeInstruction_offset (code : List Nat) (pc : Nat) :
    (decodeInstruction code pc).offset = pc := rfl

theorem decodeInstruction_size_le (code : List Nat) (pc : Nat) (h : pc < code.length) :
    pc + (decodeInstruction code pc).size ≤ code.length := by
  simp only [decodeInstruction]
  omega

theorem disasmFrom_coverage (code : List Nat) (pc : Nat) :
    (disasmFrom code pc).flatMap instructionBytes =
      List.range' pc (code.length - pc) := by
  have H : ∀ n pc, code.length - pc ≤ n →
      (disasmFrom code pc).flatMap instructionBytes =
        List.range' pc (code.length - pc) := by
    intro n
    induction n with
    | zero =>
      intro pc hn
      have hge : ¬ pc < code.length := by omega
      rw [disasmFrom]
      simp only [hge, dite_false, List.flatMap_nil]
      have h0 : code.length - pc = 0 := by omega
      simp [h0]
    | succ n ih =>
      intro pc hn
      by_cases hlt : pc < code.length
      · rw [disasmFrom]
        have hsz : 1 ≤ (decodeInstruction code pc).size :=
          decodeInstruction_size_pos code pc
        have hle : pc + (decodeInstruction code pc).size ≤ code.length :=
          decodeInstruction_size_le code pc hlt
        have hrec := ih (pc + (decodeInstruction code pc).size) (by omega)
        simp only [hlt, dite_true, List.flatMap_cons, hrec, instructionBytes]
        rw [decodeInstruction_offset, List.range'_append_1]
        congr 1
        omega
      · rw [disasmFrom]
        simp only [hlt, dite_false, List.flatMap_nil]
        have h0 : code.length - pc = 0 := by omega
        simp [h0]
  exact H (code.length - pc) pc (Nat.le_refl _)

theorem disasmFrom_eq_cons {code : List Nat} {pc : Nat} (h : pc < code.length) :
    disasmFrom code pc =
      decodeInstruction code pc ::
        disasmFrom code (pc + (decodeInstruction code pc).size) := by
  rw [disasmFrom]
  simp [h]

theorem disasmFrom_eq_nil {code : List Nat} {pc : Nat} (h : ¬ pc < code.length) :
    disasmFrom code pc = [] := by
  rw [disasmFrom]
  simp [h]

theorem self_mem_offsets_disasmFrom {code : List Nat} {pc : Nat}
    (h : pc < code.length) :
    pc ∈ (disasmFrom code pc).map Instruction.offset := by
  rw [disasmFrom_eq_cons h]
  simp [decodeInstruction_offset]

theorem next_mem_offsets_disasmFrom (code : List Nat) :
    ∀ pc i, i ∈ disasmFrom code pc → i.offset + i.size < code.length →
      (i.offset + i.size) ∈ (disasmFrom code pc).map Instruction.offset := by
  have H : ∀ n pc, code.length - pc ≤ n →
      ∀ i, i ∈ disasmFrom code pc → i.offset + i.size < code.length →
        (i.offset + i.size) ∈ (disasmFrom code pc).map Instruction.offset := by
    intro n
    induction n with
    | zero =>
      intro pc hn i hi _
      have hge : ¬ pc < code.length := by omega
      rw [disasmFrom_eq_nil hge] at hi
      simp at hi
    | succ n ih =>
      intro pc hn i hi hlt
      by_cases hpc : pc < code.length
      · rw [disasmFrom_eq_cons hpc] at hi ⊢
        rcases List.mem_cons.mp hi with hhead | htail
        · subst hhead
          rw [decodeInstruction_offset] at hlt ⊢
          have hmem := self_mem_offsets_disasmFrom hlt
          simp only [List.map_cons, List.mem_cons]
          exact Or.inr hmem
        · have hsz : 1 ≤ (decodeInstruction code pc).size :=
            decodeInstruction_size_pos code pc
          have hrec := ih (pc + (decodeInstruction code pc).size) (by omega) i htail hlt
          simp only [List.map_cons, List.mem_cons]
          exact Or.inr hrec
      · rw [disasmFrom_eq_nil hpc] at hi
        simp at hi
  exact fun pc i hi hlt => H (code.length - pc) pc (Nat.le_refl _) i hi hlt

theorem splitBlocks_cons (starts : List Nat) (i : Instruction)
    (rest : List Instruction) :
    splitBlocks starts (i :: rest) =
      match splitBlocks starts rest with
      | [] => [[i]]
      | b :: bs =>
        match b.head? with
        | some j => if j.offset ∈ starts then [i] :: b :: bs else (i :: b) :: bs
        | none => [i] :: bs := rfl

theorem splitBlocks_flatten (starts : List Nat) :
    ∀ l : List Instruction, (splitBlocks starts l).flatten = l := by
  intro l
  induction l with
  | nil => rfl
  | cons i rest ih =>
    rw [splitBlocks_cons]
    rcases hs : splitBlocks starts rest with _ | ⟨b, bs⟩
    · rw [hs] at ih
      simp at ih
      simp [ih]
    · rw [hs] at ih
      rcases hh : b.head? with _ | j
      · have hb : b = [] := List.head?_eq_none_iff.mp hh
        subst hb
        simp only []
        simp at ih
        simp [ih]
      · by_cases hcut : j.offset ∈ starts
        · simp only [hh, hcut, if_true]
          simp [ih]
        · simp only [hh, hcut, if_false]
          simp only [List.flatten_cons] at ih ⊢
          simp [ih]

theorem splitBlocks_ne_nil (starts : List Nat) :
    ∀ l b, b ∈ splitBlocks starts l → b ≠ [] := by
  intro l
  induction l with
  | nil => intro b hb; simp [splitBlocks] at hb
  | cons i rest ih =>
    intro b hb
    rw [splitBlocks_cons] at hb
    rcases hs : splitBlocks starts rest with _ | ⟨b₀, bs⟩
    · rw [hs] at hb
      simp at hb
      simp [hb]
    · rw [hs] at hb
      rcases hh : b₀.head? with _ | j
      · simp only [hh] at hb
        rcases List.mem_cons.mp hb with h | h
        · simp [h]
        · exact ih b (hs ▸ List.mem_cons_of_mem _ h)
      · by_cases hcut : j.offset ∈ starts
        · simp only [hh, hcut, if_true] at hb
          rcases List.mem_cons.mp hb with h | h
          · simp [h]
          · exact ih b (hs ▸ h)
        · simp only [hh, hcut, if_false] at hb
          rcases List.mem_cons.mp hb with h | h
          · simp [h]
          · exact ih b (hs ▸ List.mem_cons_of_mem _ h)

theorem splitBlocks_head_cut (starts : List Nat) :
    ∀ l j, j ∈ l → j.offset ∈ starts →
      ∃ b ∈ splitBlocks starts l, b.head? = some j := by
  intro l
  induction l with
  | nil => intro j hj; simp at hj
  | cons i rest ih =>
    intro j hj hcutj
    rw [splitBlocks_cons]
    rcases List.mem_cons.mp hj with hji | hjrest
    · subst hji
      rcases hs : splitBlocks starts rest with _ | ⟨b₀, bs⟩
      · exact ⟨[j], by simp⟩
      · rcases hh : b₀.head? with _ | j₀
        · exact ⟨[j], by simp [hh]⟩
        · by_cases hcut : j₀.offset ∈ starts
          · exact ⟨[j], by simp [hh, hcut]⟩
          · exact ⟨j :: b₀, by simp [hh, hcut]⟩
    · rcases ih j hjrest hcutj with ⟨b', hb', hhead⟩
      rcases hs : splitBlocks starts rest with _ | ⟨b₀, bs⟩
      · rw [hs] at hb'; simp at hb'
      · rw [hs] at hb'
        rcases List.mem_cons.mp hb' with hb'₀ | hbbs
        · subst hb'₀
          refine ⟨b', ?_, hhead⟩
          simp only [hhead]
          rw [if_pos hcutj]
          exact List.mem_cons_of_mem _ (List.mem_cons_self _ _)
        · rcases hh : b₀.head? with _ | j₀
          · refine ⟨b', ?_, hhead⟩
            simp only [hh]
            exact List.mem_cons_of_mem _ hbbs
          · by_cases hcut : j₀.offset ∈ starts
            · refine ⟨b', ?_, hhead⟩
              simp only [hh]
              rw [if_pos hcut]
              exact List.mem_cons_of_mem _ (List.mem_cons_of_mem _ hbbs)
            · refine ⟨b', ?_, hhead⟩
              simp only [hh]
              rw [if_neg hcut]
              exact List.mem_cons_of_mem _ hbbs

theorem disassemble_nil : disassemble [] = [] := by
  rw [disassemble, disasmFrom]
  simp

theorem blocksOf_nil : blocksOf [] = [] := by
  rw [blocksOf, disassemble_nil]
  rfl

theorem mem_jumpdestOffsets {code : List Nat} {t : Nat} :
    t ∈ jumpdestOffsets code ↔
      ∃ i ∈ disassemble code, i.offset = t ∧ i.opcode = 0x5b := by
  simp only [jumpdestOffsets, List.mem_filterMap]
  constructor
  · rintro ⟨i, hi, hite⟩
    by_cases h5b : i.opcode = 0x5b
    · rw [if_pos h5b] at hite
      exact ⟨i, hi, Option.some.inj hite, h5b⟩
    · rw [if_neg h5b] at hite
      cases hite
  · rintro ⟨i, hi, hoff, h5b⟩
    exact ⟨i, hi, by rw [if_pos h5b, hoff]⟩

theorem jumpdest_mem_blockStarts {code : List Nat} {t : Nat}
    (h : t ∈ jumpdestOffsets code) : t ∈ blockStarts code := by
  simp only [blockStarts, List.mem_append, List.mem_cons]
  exact Or.inl (Or.inr h)

theorem jumpdest_mem_instrOffsets {code : List Nat} {t : Nat}
    (h : t ∈ jumpdestOffsets code) : t ∈ instrOffsets code := by
  rcases mem_jumpdestOffsets.mp h with ⟨i, hi, hoff, _⟩
  exact hoff ▸ List.mem_map_of_mem Instruction.offset hi

theorem blockStarts_sub_offsets {code : List Nat} (hne : code ≠ []) :
    ∀ t ∈ blockStarts code, t ∈ instrOffsets code := by
  intro t ht
  simp only [blockStarts, List.mem_append, List.mem_cons] at ht
  rcases ht with (h0 | hjd) | hterm
  · subst h0
    have hlen : 0 < code.length := List.length_pos.mpr hne
    exact self_mem_offsets_disasmFrom hlen
  · exact jumpdest_mem_instrOffsets hjd
  · rcases List.mem_filterMap.mp hterm with ⟨i, hi, hite⟩
    by_cases hcond : isBlockEnd i.opcode ∧ i.offset + i.size < code.length
    · rw [if_pos hcond] at hite
      have := next_mem_offsets_disasmFrom code 0 i hi hcond.2
      rw [Option.some.inj hite] at this
      exact this
    · rw [if_neg hcond] at hite
      cases hite

theorem mem_blocksOf_instrs {code : List Nat} {b : BasicBlock} {i : Instruction}
    (hb : b ∈ blocksOf code) (hi : i ∈ b.instrs) : i ∈ disassemble code := by
  rcases List.mem_map.mp hb with ⟨b₀, hb₀, hbeq⟩
  have : i ∈ b₀ := by
    rw [← hbeq] at hi
    exact hi
  have hmem : i ∈ (splitBlocks (blockStarts code) (disassemble code)).flatten :=
    List.mem_flatten.mpr ⟨b₀, hb₀, this⟩
  rwa [splitBlocks_flatten] at hmem

theorem exists_jumpdest_block {code : List Nat} {t : Nat}
    (h : t ∈ jumpdestOffsets code) :
    ∃ blk ∈ blocksOf code, blk.startOff = t ∧
      ∃ j, blk.instrs.head? = some j ∧ j.offset = t ∧ j.opcode = 0x5b := by
  rcases mem_jumpdestOffsets.mp h with ⟨i, hi, hoff, h5b⟩
  have hstart : i.offset ∈ blockStarts code :=
    jumpdest_mem_blockStarts (hoff ▸ h)
  rcases splitBlocks_head_cut (blockStarts code) (disassemble code) i hi hstart
    with ⟨b₀, hb₀, hhead⟩
  refine ⟨{ startOff := match b₀.head? with
              | some j => j.offset
              | none => 0
            instrs := b₀ }, List.mem_map_of_mem _ hb₀, ?_, i, ?_, hoff, h5b⟩
  · simp only [hhead]
    exact hoff
  · exact hhead

theorem blocksOf_nonempty_code {code : List Nat} {b : BasicBlock}
    (hb : b ∈ blocksOf code) : code ≠ [] := by
  intro h
  subst h
  rw [blocksOf_nil] at hb
  cases hb

theorem mem_blockEdges_cases {code : List Nat} {b : BasicBlock} {e : Edge}
    (he : e ∈ blockEdges code b) :
    (∃ t, e = Edge.jumpTo t ∧ t ∈ jumpdestOffsets code) ∨
    (∃ t, e = Edge.conservativeTo t ∧ t ∈ jumpdestOffsets code) ∨
    (∃ t, e = Edge.fallTo t ∧ t ∈ blockStarts code ∧ t < code.length) ∨
    (∃ r, e = Edge.faultEdge r) := by
  rw [blockEdges] at he
  rcases hlast : b.instrs.getLast? with _ | last
  · rw [hlast] at he
    cases he
  · rw [hlast] at he
    simp only [] at he
    have hfall : ∀ nextOff,
        e ∈ (if nextOff ∈ blockStarts code ∧ nextOff < code.length then
              [Edge.fallTo nextOff] else []) →
        (∃ t, e = Edge.fallTo t ∧ t ∈ blockStarts code ∧ t < code.length) := by
      intro nextOff hmem
      by_cases hc : nextOff ∈ blockStarts code ∧ nextOff < code.length
      · rw [if_pos hc] at hmem
        rcases List.mem_cons.mp hmem with h | h
        · exact ⟨nextOff, h, hc⟩
        · cases h
      · rw [if_neg hc] at hmem
        cases hmem
    have hres :
        e ∈ (match staticJumpTarget b with
             | some t =>
               if t ∈ jumpdestOffsets code then [Edge.jumpTo t]
               else [Edge.faultEdge FaultReason.invalidTarget]
             | none =>
               Edge.faultEdge FaultReason.indirectJump ::
                 (jumpdestOffsets code).map Edge.conservativeTo) →
        (∃ t, e = Edge.jumpTo t ∧ t ∈ jumpdestOffsets code) ∨
        (∃ t, e = Edge.conservativeTo t ∧ t ∈ jumpdestOffsets code) ∨
        (∃ r, e = Edge.faultEdge r) := by
      intro hmem
      rcases hst : staticJumpTarget b with _ | t
      · rw [hst] at hmem
        rcases List.mem_cons.mp hmem with h | h
        · exact Or.inr (Or.inr ⟨_, h⟩)
        · rcases List.mem_map.mp h with ⟨u, hu, hue⟩
          exact Or.inr (Or.inl ⟨u, hue.symm, hu⟩)
      · rw [hst] at hmem
        have hmem2 : e ∈ (if t ∈ jumpdestOffsets code then [Edge.jumpTo t]
            else [Edge.faultEdge FaultReason.invalidTarget]) := hmem
        by_cases hjd : t ∈ jumpdestOffsets code
        · rw [if_pos hjd] at hmem2
          rcases List.mem_cons.mp hmem2 with h | h
          · exact Or.inl ⟨t, h, hjd⟩
          · cases h
        · rw [if_neg hjd] at hmem2
          rcases List.mem_cons.mp hmem2 with h | h
          · exact Or.inr (Or.inr ⟨_, h⟩)
          · cases h
    by_cases h56 : last.opcode = 0x56
    · rw [if_pos h56] at he
      rcases hres he with h | h | h
      · exact Or.inl h
      · exact Or.inr (Or.inl h)
      · exact Or.inr (Or.inr (Or.inr h))
    · rw [if_neg h56] at he
      by_cases h57 : last.opcode = 0x57
      · rw [if_pos h57] at he
        rcases List.mem_append.mp he with h | h
        · rcases hres h with h' | h' | h'
          · exact Or.inl h'
          · exact Or.inr (Or.inl h')
          · exact Or.inr (Or.inr (Or.inr h'))
        · exact Or.inr (Or.inr (Or.inl (hfall _ h)))
      · rw [if_neg h57] at he
        by_cases hend : isBlockEnd last.opcode
        · rw [if_pos hend] at he
          cases he
        · rw [if_neg hend] at he
          exact Or.inr (Or.inr (Or.inl (hfall _ he)))

theorem visitCount_nil (b : Nat) : visitCount [] b = 0 := rfl

theorem visitCount_bump_self (v : List (Nat × Nat)) (b : Nat) :
    visitCount (bumpVisit v b) b = visitCount v b + 1 := by
  simp [visitCount, bumpVisit, List.find?_cons_of_pos]

theorem visitCount_bump_other (v : List (Nat × Nat)) (b x : Nat) (hne : x ≠ b) :
    visitCount (bumpVisit v b) x = visitCount v x := by
  have hfalse : ((fun p => p.1 == x) ((b, visitCount v b + 1) : Nat × Nat)) = false := by
    simp
    exact fun h => absurd h.symm hne
  simp [visitCount, bumpVisit, List.find?_cons_of_neg, hfalse]

theorem sum_bump_lt {code : List Nat} {cap : Nat} {visits : List (Nat × Nat)}
    {b : Nat} (hb : b ∈ blockStarts code) (hc : visitCount visits b ≤ cap) :
    ((blockStarts code).map (fun x => cap + 1 - visitCount (bumpVisit visits b) x)).sum <
      ((blockStarts code).map (fun x => cap + 1 - visitCount visits x)).sum := by
  refine List.sum_lt_sum _ _ ?_ ?_
  · intro x _hx
    by_cases hxb : x = b
    · subst hxb
      rw [visitCount_bump_self]
      omega
    · rw [visitCount_bump_other _ _ _ hxb]
  · refine ⟨b, hb, ?_⟩
    rw [visitCount_bump_self]
    omega

theorem explorePS_pastEnd {code : List Nat} {cap : Nat} {ps : PathState}
    (h : code.length ≤ ps.st.pc) :
    explorePS code cap ps = [⟨ps.blockSeq, PathOutcome.halted⟩] := by
  rw [explorePS, if_pos h]

theorem explorePS_notStart {code : List Nat} {cap : Nat} {ps : PathState}
    (h1 : ¬ code.length ≤ ps.st.pc) (h2 : ps.st.pc ∉ blockStarts code) :
    explorePS code cap ps =
      [⟨ps.blockSeq, PathOutcome.fault FaultReason.invalidTarget⟩] := by
  rw [explorePS, if_neg h1, dif_neg h2]

theorem explorePS_loopBound {code : List Nat} {cap : Nat} {ps : PathState}
    (h1 : ¬ code.length ≤ ps.st.pc) (h2 : ps.st.pc ∈ blockStarts code)
    (h3 : cap ≤ visitCount ps.visits ps.st.pc) :
    explorePS code cap ps =
      [⟨ps.blockSeq, PathOutcome.abandoned AbandonReason.loopBound⟩] := by
  rw [explorePS, if_neg h1, dif_pos h2, dif_pos h3]

theorem explorePS_seal {code : List Nat} {cap : Nat} {ps : PathState}
    {o : PathOutcome} (h1 : ¬ code.length ≤ ps.st.pc)
    (h2 : ps.st.pc ∈ blockStarts code)
    (h3 : ¬ cap ≤ visitCount ps.visits ps.st.pc)
    (hend : sealOf (execPath code (code.length + 1) ps.st).2 = some o) :
    explorePS code cap ps = [⟨ps.blockSeq ++ [ps.st.pc], o⟩] := by
  rw [explorePS, if_neg h1, dif_pos h2, dif_neg h3]
  rcases hpe : (execPath code (code.length + 1) ps.st).2 with
    _ | _ | _ | r | ⟨t, st'⟩ | ⟨t, c, st'⟩ | _
  all_goals rw [hpe] at hend
  all_goals simp only [sealOf, Option.some.injEq] at hend
  all_goals first
    | (simp only [hpe]
       rw [hend])
    | cases hend

theorem explorePS_jump_eq {code : List Nat} {cap : Nat} {ps : PathState}
    {t : SymVal} {st' : ExecState} (h1 : ¬ code.length ≤ ps.st.pc)
    (h2 : ps.st.pc ∈ blockStarts code)
    (h3 : ¬ cap ≤ visitCount ps.visits ps.st.pc)
    (hend : (execPath code (code.length + 1) ps.st).2 = PathEnd.jumped t st') :
    explorePS code cap ps =
      (match concreteOf t with
       | some v =>
         if v ∈ jumpdestOffsets code then
           explorePS code cap
             ⟨{ st' with pc := v }, bumpVisit ps.visits ps.st.pc,
               ps.blockSeq ++ [ps.st.pc]⟩
         else
           [⟨ps.blockSeq ++ [ps.st.pc],
             PathOutcome.fault FaultReason.invalidTarget⟩]
       | none =>
         [⟨ps.blockSeq ++ [ps.st.pc],
           PathOutcome.fault FaultReason.indirectJump⟩]) := by
  rw [explorePS, if_neg h1, dif_pos h2, dif_neg h3]
  simp only [hend]

theorem explorePS_jumpi_eq {code : List Nat} {cap : Nat} {ps : PathState}
    {t c : SymVal} {st' : ExecState} (h1 : ¬ code.length ≤ ps.st.pc)
    (h2 : ps.st.pc ∈ blockStarts code)
    (h3 : ¬ cap ≤ visitCount ps.visits ps.st.pc)
    (hend : (execPath code (code.length + 1) ps.st).2 = PathEnd.jumpied t c st') :
    explorePS code cap ps =
      (match concreteOf t with
       | some v =>
         if v ∈ jumpdestOffsets code then
           explorePS code cap
             ⟨{ st' with pc := v }, bumpVisit ps.visits ps.st.pc,
               ps.blockSeq ++ [ps.st.pc]⟩
         else
           [⟨ps.blockSeq ++ [ps.st.pc],
             PathOutcome.fault FaultReason.invalidTarget⟩]
       | none =>
         [⟨ps.blockSeq ++ [ps.st.pc],
           PathOutcome.fault FaultReason.indirectJump⟩]) ++
      explorePS code cap
        ⟨st', bumpVisit ps.visits ps.st.pc, ps.blockSeq ++ [ps.st.pc]⟩ := by
  rw [explorePS, if_neg h1, dif_pos h2, dif_neg h3]
  simp only [hend]

theorem count_append_singleton_self (l : List Nat) (a : Nat) :
    (l ++ [a]).count a = l.count a + 1 := by
  simp [List.count_append]

theorem count_append_singleton_other (l : List Nat) (a b : Nat) (h : b ≠ a) :
    (l ++ [a]).count b = l.count b := by
  rw [List.count_append]
  have h0 : List.count b [a] = 0 := by
    rw [List.count_eq_zero]
    simp [h]
  rw [h0]
  omega

theorem explorePS_count_le (code : List Nat) (cap : Nat) :
    ∀ n (ps : PathState),
      ((blockStarts code).map (fun x => cap + 1 - visitCount ps.visits x)).sum ≤ n →
      (∀ b, ps.blockSeq.count b ≤ visitCount ps.visits b) →
      (∀ b, visitCount ps.visits b ≤ cap) →
      ∀ p ∈ explorePS code cap ps, ∀ b, p.blockSeq.count b ≤ cap := by
  intro n
  induction n with
  | zero =>
    intro ps hμ hc hv p hp b
    by_cases h1 : code.length ≤ ps.st.pc
    · rw [explorePS_pastEnd h1] at hp
      rcases List.mem_singleton.mp hp with h
      rw [h]
      exact Nat.le_trans (hc b) (hv b)
    · by_cases h2 : ps.st.pc ∈ blockStarts code
      · exfalso
        have hz : cap + 1 - visitCount ps.visits ps.st.pc = 0 := by
          have hmem : cap + 1 - visitCount ps.visits ps.st.pc ∈
              (blockStarts code).map
                (fun x => cap + 1 - visitCount ps.visits x) :=
            List.mem_map_of_mem _ h2
          have hsum : ((blockStarts code).map
              (fun x => cap + 1 - visitCount ps.visits x)).sum = 0 := by omega
          exact List.sum_eq_zero_iff.mp hsum _ hmem
        have := hv ps.st.pc
        omega
      · rw [explorePS_notStart h1 h2] at hp
        rcases List.mem_singleton.mp hp with h
        rw [h]
        exact Nat.le_trans (hc b) (hv b)
  | succ n ih =>
    intro ps hμ hc hv p hp b
    by_cases h1 : code.length ≤ ps.st.pc
    · rw [explorePS_pastEnd h1] at hp
      rcases List.mem_singleton.mp hp with h
      rw [h]
      exact Nat.le_trans (hc b) (hv b)
    · by_cases h2 : ps.st.pc ∈ blockStarts code
      · by_cases h3 : cap ≤ visitCount ps.visits ps.st.pc
        · rw [explorePS_loopBound h1 h2 h3] at hp
          rcases List.mem_singleton.mp hp with h
          rw [h]
          exact Nat.le_trans (hc b) (hv b)
        · have hseq' : ∀ x, (ps.blockSeq ++ [ps.st.pc]).count x ≤ cap := by
            intro x
            by_cases hx : x = ps.st.pc
            · subst hx
              rw [count_append_singleton_self]
              have := hc ps.st.pc
              omega
            · rw [count_append_singleton_other _ _ _ hx]
              exact Nat.le_trans (hc x) (hv x)
          have hc' : ∀ x, (ps.blockSeq ++ [ps.st.pc]).count x ≤
              visitCount (bumpVisit ps.visits ps.st.pc) x := by
            intro x
            by_cases hx : x = ps.st.pc
            · subst hx
              rw [count_append_singleton_self, visitCount_bump_self]
              have := hc ps.st.pc
              omega
            · rw [count_append_singleton_other _ _ _ hx,
                visitCount_bump_other _ _ _ hx]
              exact hc x
          have hv' : ∀ x, visitCount (bumpVisit ps.visits ps.st.pc) x ≤ cap := by
            intro x
            by_cases hx : x = ps.st.pc
            · subst hx
              rw [visitCount_bump_self]
              omega
            · rw [visitCount_bump_other _ _ _ hx]
              exact hv x
          have hμ' : ((blockStarts code).map
              (fun x => cap + 1 -
                visitCount (bumpVisit ps.visits ps.st.pc) x)).sum ≤ n := by
            have := sum_bump_lt h2 (hv ps.st.pc)
            omega
          rcases hpe : (execPath code (code.length + 1) ps.st).2 with
            _ | _ | _ | r | ⟨t, st'⟩ | ⟨t, c, st'⟩ | _
          · rw [explorePS_seal h1 h2 h3 (by rw [hpe]; rfl)] at hp
            rcases List.mem_singleton.mp hp with h
            rw [h]
            exact hseq' b
          · rw [explorePS_seal h1 h2 h3 (by rw [hpe]; rfl)] at hp
            rcases List.mem_singleton.mp hp with h
            rw [h]
            exact hseq' b
          · rw [explorePS_seal h1 h2 h3 (by rw [hpe]; rfl)] at hp
            rcases List.mem_singleton.mp hp with h
            rw [h]
            exact hseq' b
          · rw [explorePS_seal h1 h2 h3 (by rw [hpe]; rfl)] at hp
            rcases List.mem_singleton.mp hp with h
            rw [h]
            exact hseq' b
          · rw [explorePS_jump_eq h1 h2 h3 hpe] at hp
            rcases hct : concreteOf t with _ | v
            · simp only [hct] at hp
              rcases List.mem_singleton.mp hp with h
              rw [h]
              exact hseq' b
            · simp only [hct] at hp
              by_cases hjd : v ∈ jumpdestOffsets code
              · rw [if_pos hjd] at hp
                exact ih _ hμ' hc' hv' p hp b
              · rw [if_neg hjd] at hp
                rcases List.mem_singleton.mp hp with h
                rw [h]
                exact hseq' b
          · rw [explorePS_jumpi_eq h1 h2 h3 hpe] at hp
            rcases List.mem_append.mp hp with hp' | hp'
            · rcases hct : concreteOf t with _ | v
              · simp only [hct] at hp'
                rcases List.mem_singleton.mp hp' with h
                rw [h]
                exact hseq' b
              · simp only [hct] at hp'
                by_cases hjd : v ∈ jumpdestOffsets code
                · rw [if_pos hjd] at hp'
                  exact ih _ hμ' hc' hv' p hp' b
                · rw [if_neg hjd] at hp'
                  rcases List.mem_singleton.mp hp' with h
                  rw [h]
                  exact hseq' b
            · exact ih _ hμ' hc' hv' p hp' b
          · rw [explorePS_seal h1 h2 h3 (by rw [hpe]; rfl)] at hp
            rcases List.mem_singleton.mp hp with h
            rw [h]
            exact hseq' b
      · rw [explorePS_notStart h1 h2] at hp
        rcases List.mem_singleton.mp hp with h
        rw [h]
        exact Nat.le_trans (hc b) (hv b)

theorem stepInstr_eq_none {st : ExecState} {i : Instruction}
    (h : opEffect i st.stack st.fresh = none) :
    stepInstr st i = StepResult.fault FaultReason.invalidOpcode := by
  unfold stepInstr
  rw [h]

theorem stepInstr_eq_guarded {st : ExecState} {i : Instruction} {pops : Nat}
    {pushed : List SymVal} (h : opEffect i st.stack st.fresh = some (pops, pushed)) :
    stepInstr st i = stepGuarded st i pops pushed := by
  unfold stepInstr
  rw [h]

theorem stepGuarded_result_stack_le {st : ExecState} {i : Instruction}
    {pops : Nat} {pushed : List SymVal} {st' : ExecState}
    (h : resultState (stepGuarded st i pops pushed) = some st') :
    st'.stack.length ≤ 1024 := by
  unfold stepGuarded at h
  by_cases h1 : st.stack.length < pops
  · rw [if_pos h1] at h
    simp [resultState] at h
  · rw [if_neg h1] at h
    by_cases h2 : 1024 < st.stack.length - pops + pushed.length
    · rw [if_pos h2] at h
      simp [resultState] at h
    · rw [if_neg h2] at h
      simp only [] at h
      split_ifs at h
      all_goals simp only [resultState, Option.some.injEq] at h
      all_goals
        first
          | exact Option.noConfusion h
          | (subst h
             simp only [List.length_append, List.length_drop]
             omega)

theorem stepInstr_result_stack_le {st : ExecState} {i : Instruction}
    {st' : ExecState} (h : resultState (stepInstr st i) = some st') :
    st'.stack.length ≤ 1024 := by
  rcases heff : opEffect i st.stack st.fresh with _ | ⟨pops, pushed⟩
  · rw [stepInstr_eq_none heff] at h
    simp [resultState] at h
  · rw [stepInstr_eq_guarded heff] at h
    exact stepGuarded_result_stack_le h

theorem execPath_zero (code : List Nat) (st : ExecState) :
    execPath code 0 st = ([st], PathEnd.outOfFuel) := rfl

theorem execPath_succ_next {code : List Nat} {fuel : Nat} {st₀ st' : ExecState}
    (hpc : st₀.pc < code.length)
    (hstep : stepInstr st₀ (decodeInstruction code st₀.pc) = StepResult.next st') :
    execPath code (fuel + 1) st₀ =
      (st₀ :: (execPath code fuel st').1, (execPath code fuel st').2) := by
  rw [execPath, if_pos hpc, hstep]

theorem execPath_succ_halted {code : List Nat} {fuel : Nat} {st₀ : ExecState}
    (hpc : st₀.pc < code.length)
    (hstep : stepInstr st₀ (decodeInstruction code st₀.pc) = StepResult.halted) :
    execPath code (fuel + 1) st₀ = ([st₀], PathEnd.halted) := by
  rw [execPath, if_pos hpc, hstep]

theorem execPath_succ_reverted {code : List Nat} {fuel : Nat} {st₀ : ExecState}
    (hpc : st₀.pc < code.length)
    (hstep : stepInstr st₀ (decodeInstruction code st₀.pc) = StepResult.reverted) :
    execPath code (fuel + 1) st₀ = ([st₀], PathEnd.reverted) := by
  rw [execPath, if_pos hpc, hstep]

theorem execPath_succ_selfdestructed {code : List Nat} {fuel : Nat}
    {st₀ : ExecState} (hpc : st₀.pc < code.length)
    (hstep : stepInstr st₀ (decodeInstruction code st₀.pc) =
      StepResult.selfdestructed) :
    execPath code (fuel + 1) st₀ = ([st₀], PathEnd.selfdestructed) := by
  rw [execPath, if_pos hpc, hstep]

theorem execPath_succ_fault {code : List Nat} {fuel : Nat} {st₀ : ExecState}
    {r : FaultReason} (hpc : st₀.pc < code.length)
    (hstep : stepInstr st₀ (decodeInstruction code st₀.pc) = StepResult.fault r) :
    execPath code (fuel + 1) st₀ = ([st₀], PathEnd.fault r) := by
  rw [execPath, if_pos hpc, hstep]

theorem execPath_succ_jump {code : List Nat} {fuel : Nat} {st₀ st' : ExecState}
    {t : SymVal} (hpc : st₀.pc < code.length)
    (hstep : stepInstr st₀ (decodeInstruction code st₀.pc) = StepResult.jump t st') :
    execPath code (fuel + 1) st₀ = ([st₀], PathEnd.jumped t st') := by
  rw [execPath, if_pos hpc, hstep]

theorem execPath_succ_jumpi {code : List Nat} {fuel : Nat} {st₀ st' : ExecState}
    {t c : SymVal} (hpc : st₀.pc < code.length)
    (hstep : stepInstr st₀ (decodeInstruction code st₀.pc) =
      StepResult.jumpi t c st') :
    execPath code (fuel + 1) st₀ = ([st₀], PathEnd.jumpied t c st') := by
  rw [execPath, if_pos hpc, hstep]

theorem execPath_succ_pastEnd {code : List Nat} {fuel : Nat} {st₀ : ExecState}
    (hpc : ¬ st₀.pc < code.length) :
    execPath code (fuel + 1) st₀ = ([st₀], PathEnd.halted) := by
  rw [execPath, if_neg hpc]

theorem execPath_trace_stack_le (code : List Nat) :
    ∀ fuel st₀, st₀.stack.length ≤ 1024 →
      ∀ st ∈ (execPath code fuel st₀).1, st.stack.length ≤ 1024 := by
  intro fuel
  induction fuel with
  | zero =>
    intro st₀ h0 st hst
    rw [execPath_zero] at hst
    rcases List.mem_singleton.mp hst with h
    rw [h]
    exact h0
  | succ fuel ih =>
    intro st₀ h0 st hst
    by_cases hpc : st₀.pc < code.length
    · rcases hstep : stepInstr st₀ (decodeInstruction code st₀.pc) with
        st' | _ | _ | _ | r | ⟨t, st'⟩ | ⟨t, c, st'⟩
      · rw [execPath_succ_next hpc hstep] at hst
        rcases List.mem_cons.mp hst with h | h
        · rw [h]; exact h0
        · exact ih st' (stepInstr_result_stack_le (by rw [hstep]; rfl)) st h
      · rw [execPath_succ_halted hpc hstep] at hst
        rcases List.mem_singleton.mp hst with h
        rw [h]; exact h0
      · rw [execPath_succ_reverted hpc hstep] at hst
        rcases List.mem_singleton.mp hst with h
        rw [h]; exact h0
      · rw [execPath_succ_selfdestructed hpc hstep] at hst
        rcases List.mem_singleton.mp hst with h
        rw [h]; exact h0
      · rw [execPath_succ_fault hpc hstep] at hst
        rcases List.mem_singleton.mp hst with h
        rw [h]; exact h0
      · rw [execPath_succ_jump hpc hstep] at hst
        rcases List.mem_singleton.mp hst with h
        rw [h]; exact h0
      · rw [execPath_succ_jumpi hpc hstep] at hst
        rcases List.mem_singleton.mp hst with h
        rw [h]; exact h0
    · rw [execPath_succ_pastEnd hpc] at hst
      rcases List.mem_singleton.mp hst with h
      rw [h]; exact h0

/-- C2: for every non-empty byte sequence, the instruction ranges
`[offset, offset+size)` emitted by disassembly, concatenated in stream
order, are exactly the interval `[0, len(bytecode))`: no gaps, no
overlaps, every byte covered — including unknown opcodes and a truncated
trailing PUSH immediate. -/
theorem disassembly_byte_exact_coverage (code : List Nat) (_hne : code ≠ []) :
    (disassemble code).flatMap instructionBytes = List.range code.length := by
  rw [disassemble, disasmFrom_coverage, List.range_eq_range']
  simp

/-- Witness for C2 at the concrete bytecode `PUSH1 0x01; STOP; <0xfe>`
(the PUSH immediate and an invalid opcode are both covered). -/
theorem disassembly_byte_exact_coverage_witness :
    ([0x60, 0x01, 0x00, 0xfe] : List Nat) ≠ [] ∧
      (disassemble [0x60, 0x01, 0x00, 0xfe]).flatMap instructionBytes =
        List.range 4 :=
  ⟨by decide, disassembly_byte_exact_coverage [0x60, 0x01, 0x00, 0xfe] (by decide)⟩

/-- C4 (counterexample): the claim "every edge targets a block whose first
instruction is a JUMPDEST, or the edge is a Fault edge" is false.  On
`PUSH1 0x06; JUMPI; STOP; STOP; STOP; STOP; JUMPDEST; STOP` the JUMPI
block's false (fallthrough) edge targets the block at offset 3, whose
first instruction is STOP, not JUMPDEST, and the edge is not a fault
edge. -/
theorem cfg_jump_validity_counterexample :
    ¬ (∀ p ∈ (buildCFG [0x60, 0x06, 0x57, 0x00, 0x00, 0x00, 0x5b, 0x00]).edges,
        ∀ e ∈ p.2,
          edgeClaimOk [0x60, 0x06, 0x57, 0x00, 0x00, 0x00, 0x5b, 0x00] e = true) := by
  have hdis : disassemble [0x60, 0x06, 0x57, 0x00, 0x00, 0x00, 0x5b, 0x00] =
      [⟨0, 0x60, [0x06], 2⟩, ⟨2, 0x57, [], 1⟩, ⟨3, 0x00, [], 1⟩, ⟨4, 0x00, [], 1⟩,
       ⟨5, 0x00, [], 1⟩, ⟨6, 0x5b, [], 1⟩, ⟨7, 0x00, [], 1⟩] := by
    simp [disassemble, disasmFrom, decodeInstruction, pushBytes]
  intro h
  have h2 := h
  simp only [buildCFG, blocksOf, blockEdges, blockStarts, jumpdestOffsets,
    instrOffsets, splitBlocks, edgeClaimOk, jumpdestHeaded, staticJumpTarget,
    pushValue, isBlockEnd, isPushOp, hdis] at h2
  revert h2
  decide

/-- C4 (amended): every statically resolved JUMP/JUMPI target edge and
every conservative indirect-jump successor edge targets a block whose
first instruction is a JUMPDEST; every fallthrough / JUMPI-false edge
targets a block start that is an instruction boundary (never the middle
of an instruction); and a statically resolved target that is not an
existing JUMPDEST offset produces a `Fault(InvalidTarget)` edge and no
resolved jump successor. -/
theorem cfg_jump_validity (code : List Nat) :
    (∀ b ∈ (buildCFG code).blocks, ∀ e ∈ blockEdges code b,
      (∀ t, (e = Edge.jumpTo t ∨ e = Edge.conservativeTo t) →
        (∃ blk ∈ (buildCFG code).blocks, blk.startOff = t ∧
          ∃ j, blk.instrs.head? = some j ∧ j.offset = t ∧ j.opcode = 0x5b) ∧
        t ∈ blockStarts code ∧ t ∈ instrOffsets code) ∧
      (∀ t, e = Edge.fallTo t →
        t ∈ blockStarts code ∧ t ∈ instrOffsets code)) ∧
    (∀ b ∈ (buildCFG code).blocks, ∀ last, b.instrs.getLast? = some last →
      last.opcode = 0x56 ∨ last.opcode = 0x57 →
      ∀ t, staticJumpTarget b = some t → t ∉ jumpdestOffsets code →
        Edge.faultEdge FaultReason.invalidTarget ∈ blockEdges code b ∧
        ∀ u, Edge.jumpTo u ∉ blockEdges code b) := by
  constructor
  · intro b hb e he
    have hne : code ≠ [] := blocksOf_nonempty_code hb
    rcases mem_blockEdges_cases he with ⟨t', het, hjd⟩ | ⟨t', het, hjd⟩ |
      ⟨t', het, hbs, _⟩ | ⟨r, her⟩
    · constructor
      · intro t ht
        rcases ht with ht | ht
        · rw [het] at ht
          cases ht
          exact ⟨exists_jumpdest_block hjd, jumpdest_mem_blockStarts hjd,
            jumpdest_mem_instrOffsets hjd⟩
        · rw [het] at ht
          cases ht
      · intro t ht
        rw [het] at ht
        cases ht
    · constructor
      · intro t ht
        rcases ht with ht | ht
        · rw [het] at ht
          cases ht
        · rw [het] at ht
          cases ht
          exact ⟨exists_jumpdest_block hjd, jumpdest_mem_blockStarts hjd,
            jumpdest_mem_instrOffsets hjd⟩
      · intro t ht
        rw [het] at ht
        cases ht
    · constructor
      · intro t ht
        rcases ht with ht | ht
        · rw [het] at ht
          cases ht
        · rw [het] at ht
          cases ht
      · intro t ht
        rw [het] at ht
        cases ht
        exact ⟨hbs, blockStarts_sub_offsets hne _ hbs⟩
    · constructor
      · intro t ht
        rcases ht with ht | ht
        · rw [her] at ht
          cases ht
        · rw [her] at ht
          cases ht
      · intro t ht
        rw [her] at ht
        cases ht
  · intro b _hb last hlast hop t hst hnjd
    have hedges :
        (Edge.faultEdge FaultReason.invalidTarget ∈ blockEdges code b ∧
          ∀ u, Edge.jumpTo u ∉ blockEdges code b) := by
      rw [blockEdges, hlast]
      simp only []
      rcases hop with h56 | h57
      · rw [if_pos h56, hst]
        show Edge.faultEdge FaultReason.invalidTarget ∈
            (if t ∈ jumpdestOffsets code then [Edge.jumpTo t]
             else [Edge.faultEdge FaultReason.invalidTarget]) ∧
          ∀ u, Edge.jumpTo u ∉
            (if t ∈ jumpdestOffsets code then [Edge.jumpTo t]
             else [Edge.faultEdge FaultReason.invalidTarget])
        rw [if_neg hnjd]
        exact ⟨List.mem_singleton.mpr rfl, fun u hu =>
          Edge.noConfusion (List.mem_singleton.mp hu)⟩
      · have h56 : ¬ last.opcode = 0x56 := by
          intro h
          rw [h] at h57
          exact absurd h57 (by decide)
        rw [if_neg h56, if_pos h57, hst]
        show Edge.faultEdge FaultReason.invalidTarget ∈
            ((if t ∈ jumpdestOffsets code then [Edge.jumpTo t]
              else [Edge.faultEdge FaultReason.invalidTarget]) ++
             (if last.offset + last.size ∈ blockStarts code ∧
                  last.offset + last.size < code.length then
                [Edge.fallTo (last.offset + last.size)] else [])) ∧
          ∀ u, Edge.jumpTo u ∉
            ((if t ∈ jumpdestOffsets code then [Edge.jumpTo t]
              else [Edge.faultEdge FaultReason.invalidTarget]) ++
             (if last.offset + last.size ∈ blockStarts code ∧
                  last.offset + last.size < code.length then
                [Edge.fallTo (last.offset + last.size)] else []))
        rw [if_neg hnjd]
        constructor
        · exact List.mem_append.mpr (Or.inl (List.mem_singleton.mpr rfl))
        · intro u hu
          rcases List.mem_append.mp hu with h | h
          · exact Edge.noConfusion (List.mem_singleton.mp h)
          · by_cases hc : last.offset + last.size ∈ blockStarts code ∧
                last.offset + last.size < code.length
            · rw [if_pos hc] at h
              exact Edge.noConfusion (List.mem_singleton.mp h)
            · rw [if_neg hc] at h
              cases h
    exact hedges

/-- C5: loop-bounded exploration.  (a) Exploration — a total function,
defined by well-founded recursion on the remaining per-block visit
budget, so it terminates on every bytecode, cyclic CFGs included —
produces only paths that enter any block (hence traverse any loop SCC,
each of whose iterations re-enters a block) at most `cap` times; (b) a
path about to enter a block already visited `cap` times is sealed as
`Abandoned(LoopBound)` instead of being explored further. -/
theorem loop_bounded_exploration (code : List Nat) (cap : Nat) :
    (∀ p ∈ exploreAll code cap, ∀ b, p.blockSeq.count b ≤ cap) ∧
    (∀ ps : PathState, ¬ code.length ≤ ps.st.pc →
      ps.st.pc ∈ blockStarts code →
      cap ≤ visitCount ps.visits ps.st.pc →
      explorePS code cap ps =
        [⟨ps.blockSeq, PathOutcome.abandoned AbandonReason.loopBound⟩]) := by
  constructor
  · intro p hp b
    refine explorePS_count_le code cap
      (((blockStarts code).map (fun x => cap + 1 - visitCount [] x)).sum)
      ⟨⟨0, [], [], 0⟩, [], []⟩ (Nat.le_refl _) ?_ ?_ p hp b
    · intro x
      simp [visitCount_nil]
    · intro x
      simp [visitCount_nil]
  · intro ps hl hs hcap
    exact explorePS_loopBound hl hs hcap

/-- Witness for C5: on `STOP` with cap 2 the single explored path enters
only the entry block, once. -/
theorem loop_bounded_exploration_witness :
    Path.mk [0] PathOutcome.halted ∈ exploreAll [0x00] 2 ∧
      ∀ b, (Path.mk [0] PathOutcome.halted).blockSeq.count b ≤ 2 := by
  have hend : sealOf (execPath [0x00] (([0x00] : List Nat).length + 1)
      (⟨0, [], [], 0⟩ : ExecState)).2 = some PathOutcome.halted := by decide
  have hmem : Path.mk [0] PathOutcome.halted ∈ exploreAll [0x00] 2 := by
    rw [exploreAll, explorePS_seal (by decide) (List.mem_cons_self _ _)
      (by decide) hend]
    simp
  exact ⟨hmem, fun b => (loop_bounded_exploration [0x00] 2).1 _ hmem b⟩

/-- Witness for C4 (amended) at the counterexample bytecode: the
fallthrough edge of the JUMPI block targets block start 3, which is an
instruction boundary. -/
theorem stack_bound_enforced_aux₁ {st : ExecState} {i : Instruction}
    {pops : Nat} {pushed : List SymVal}
    (heff : opEffect i st.stack st.fresh = some (pops, pushed))
    (hlt : st.stack.length < pops) :
    stepInstr st i = StepResult.fault FaultReason.stackUnderflow := by
  rw [stepInstr_eq_guarded heff, stepGuarded, if_pos hlt]

theorem stack_bound_enforced_aux₂ {st : ExecState} {i : Instruction}
    {pops : Nat} {pushed : List SymVal}
    (heff : opEffect i st.stack st.fresh = some (pops, pushed))
    (hge : pops ≤ st.stack.length)
    (hovf : 1024 < st.stack.length - pops + pushed.length) :
    stepInstr st i = StepResult.fault FaultReason.stackOverflow := by
  rw [stepInstr_eq_guarded heff, stepGuarded, if_neg (by omega), if_pos hovf]

/-- C3: symbolic execution respects the EVM stack limit.  (a) Every state
in the trace of a path run from a state within the 1024 bound stays
within the bound; (b) an instruction that pops more elements than the
stack holds steps to `Fault(StackUnderflow)`; (c) an instruction whose
effect would leave more than 1024 elements steps to
`Fault(StackOverflow)`; (d) a faulting step seals the path at once: the
run returns with exactly that fault and no further states. -/
theorem symbolic_stack_bound (code : List Nat) (fuel : Nat) (st₀ : ExecState)
    (h0 : st₀.stack.length ≤ 1024) :
    (∀ st ∈ (execPath code fuel st₀).1, st.stack.length ≤ 1024) ∧
    (∀ (st : ExecState) (i : Instruction) (pops : Nat) (pushed : List SymVal),
      opEffect i st.stack st.fresh = some (pops, pushed) →
      (st.stack.length < pops →
        stepInstr st i = StepResult.fault FaultReason.stackUnderflow) ∧
      (pops ≤ st.stack.length →
        1024 < st.stack.length - pops + pushed.length →
        stepInstr st i = StepResult.fault FaultReason.stackOverflow)) ∧
    (∀ (st : ExecState) (r : FaultReason) (n : Nat),
      st.pc < code.length →
      stepInstr st (decodeInstruction code st.pc) = StepResult.fault r →
      execPath code (n + 1) st = ([st], PathEnd.fault r)) := by
  refine ⟨execPath_trace_stack_le code fuel st₀ h0, ?_, ?_⟩
  · intro st i pops pushed heff
    exact ⟨fun hlt => stack_bound_enforced_aux₁ heff hlt,
      fun hge hovf => stack_bound_enforced_aux₂ heff hge hovf⟩
  · intro st r n hpc hstep
    exact execPath_succ_fault hpc hstep

/-- Witness for C3 at `PUSH1 0x01; STOP` from the empty initial stack. -/
theorem symbolic_stack_bound_witness :
    (⟨0, [], [], 0⟩ : ExecState).stack.length ≤ 1024 ∧
      ((∀ st ∈ (execPath [0x60, 0x01, 0x00] 5 ⟨0, [], [], 0⟩).1,
          st.stack.length ≤ 1024) ∧
       (∀ (st : ExecState) (i : Instruction) (pops : Nat) (pushed : List SymVal),
         opEffect i st.stack st.fresh = some (pops, pushed) →
         (st.stack.length < pops →
           stepInstr st i = StepResult.fault FaultReason.stackUnderflow) ∧
         (pops ≤ st.stack.length →
           1024 < st.stack.length - pops + pushed.length →
           stepInstr st i = StepResult.fault FaultReason.stackOverflow)) ∧
       (∀ (st : ExecState) (r : FaultReason) (n : Nat),
         st.pc < ([0x60, 0x01, 0x00] : List Nat).length →
         stepInstr st (decodeInstruction [0x60, 0x01, 0x00] st.pc) =
           StepResult.fault r →
         execPath [0x60, 0x01, 0x00] (n + 1) st = ([st], PathEnd.fault r))) :=
  ⟨by decide, symbolic_stack_bound [0x60, 0x01, 0x00] 5 ⟨0, [], [], 0⟩ (by decide)⟩

theorem cfg_jump_validity_witness :
    ∀ b ∈ (buildCFG [0x60, 0x06, 0x57, 0x00, 0x00, 0x00, 0x5b, 0x00]).blocks,
      ∀ e ∈ blockEdges [0x60, 0x06, 0x57, 0x00, 0x00, 0x00, 0x5b, 0x00] b,
        (∀ t, (e = Edge.jumpTo t ∨ e = Edge.conservativeTo t) →
          (∃ blk ∈ (buildCFG [0x60, 0x06, 0x57, 0x00, 0x00, 0x00, 0x5b, 0x00]).blocks,
            blk.startOff = t ∧
            ∃ j, blk.instrs.head? = some j ∧ j.offset = t ∧ j.opcode = 0x5b) ∧
          t ∈ blockStarts [0x60, 0x06, 0x57, 0x00, 0x00, 0x00, 0x5b, 0x00] ∧
          t ∈ instrOffsets [0x60, 0x06, 0x57, 0x00, 0x00, 0x00, 0x5b, 0x00]) ∧
        (∀ t, e = Edge.fallTo t →
          t ∈ blockStarts [0x60, 0x06, 0x57, 0x00, 0x00, 0x00, 0x5b, 0x00] ∧
          t ∈ instrOffsets [0x60, 0x06, 0x57, 0x00, 0x00, 0x00, 0x5b, 0x00]) :=
  (cfg_jump_validity [0x60, 0x06, 0x57, 0x00, 0x00, 0x00, 0x5b, 0x00]).1

theorem better_asymm {f g : Finding} (h : betterFinding f g) :
    ¬ betterFinding g f := by
  unfold betterFinding at *
  omega

theorem better_trans {f g h : Finding} (h1 : betterFinding f g)
    (h2 : betterFinding g h) : betterFinding f h := by
  unfold betterFinding at *
  omega

theorem better_irrefl (f : Finding) : ¬ betterFinding f f := by
  unfold betterFinding
  omega

theorem better_connex {f g : Finding} (h1 : ¬ betterFinding f g)
    (h2 : ¬ betterFinding g f) (hk : findingKey f = findingKey g) : f = g := by
  have hkind : f.kind = g.kind := congrArg Prod.fst hk
  have hloc : f.location = g.location := congrArg Prod.snd hk
  unfold betterFinding at h1 h2
  cases f
  cases g
  simp only [Finding.mk.injEq]
  simp only [] at hkind hloc h1 h2
  exact ⟨hkind, hloc, by omega, by omega, by omega⟩

theorem mergeInto_key (f g : Finding) :
    findingKey (mergeInto f g) = findingKey g := by
  unfold mergeInto
  split_ifs with h
  · exact h.1.symm
  · rfl

theorem mergeInto_id {f g : Finding} (h : findingKey g ≠ findingKey f) :
    mergeInto f g = g := by
  unfold mergeInto
  rw [if_neg]
  exact fun hc => h hc.1

theorem mergeInto_self (f : Finding) : mergeInto f f = f := by
  unfold mergeInto
  split_ifs <;> rfl

theorem mergeInto_pos {f e : Finding} (hk : findingKey e = findingKey f)
    (hb : betterFinding f e) : mergeInto f e = f := by
  unfold mergeInto
  rw [if_pos ⟨hk, hb⟩]

theorem mergeInto_neg {f e : Finding} (hb : ¬ betterFinding f e) :
    mergeInto f e = e := by
  unfold mergeInto
  rw [if_neg fun hc => hb hc.2]

theorem mergeInto_comm₂ {f g : Finding} (hk : findingKey g = findingKey f) :
    mergeInto g f = mergeInto f g := by
  by_cases hgf : betterFinding g f
  · rw [mergeInto_pos hk.symm hgf, mergeInto_neg (better_asymm hgf)]
  · rw [mergeInto_neg hgf]
    by_cases hfg : betterFinding f g
    · rw [mergeInto_pos hk hfg]
    · rw [mergeInto_neg hfg]
      exact better_connex hfg hgf hk.symm

theorem mergeInto_idem (f e : Finding) :
    mergeInto f (mergeInto f e) = mergeInto f e := by
  by_cases hc : findingKey e = findingKey f ∧ betterFinding f e
  · rw [mergeInto_pos hc.1 hc.2, mergeInto_self]
  · have he : mergeInto f e = e := by
      unfold mergeInto
      rw [if_neg hc]
    rw [he, he]

theorem mergeInto_comm (f g e : Finding) :
    mergeInto g (mergeInto f e) = mergeInto f (mergeInto g e) := by
  by_cases hef : findingKey e = findingKey f
  · by_cases heg : findingKey e = findingKey g
    · have hfg : findingKey f = findingKey g := hef.symm.trans heg
      by_cases hfe : betterFinding f e
      · rw [mergeInto_pos hef hfe]
        by_cases hgf : betterFinding g f
        · rw [mergeInto_pos hfg hgf,
            mergeInto_pos heg (better_trans hgf hfe),
            mergeInto_neg (better_asymm hgf)]
        · rw [mergeInto_neg hgf]
          by_cases hge : betterFinding g e
          · rw [mergeInto_pos heg hge]
            by_cases hfg' : betterFinding f g
            · rw [mergeInto_pos hfg.symm hfg']
            · rw [mergeInto_neg hfg']
              exact better_connex hfg' hgf hfg
          · rw [mergeInto_neg hge, mergeInto_pos hef hfe]
      · rw [mergeInto_neg hfe]
        by_cases hge : betterFinding g e
        · rw [mergeInto_pos heg hge,
            mergeInto_neg (fun hfg' => hfe (better_trans hfg' hge))]
        · rw [mergeInto_neg hge, mergeInto_neg hfe]
    · have hkeyf : findingKey (mergeInto f e) ≠ findingKey g := by
        rw [mergeInto_key]
        exact heg
      rw [mergeInto_id hkeyf,
        mergeInto_id (show findingKey e ≠ findingKey g from heg)]
  · by_cases heg : findingKey e = findingKey g
    · have hkey : findingKey (mergeInto g e) ≠ findingKey f := by
        rw [mergeInto_key]
        exact hef
      rw [mergeInto_id (show findingKey e ≠ findingKey f from hef),
        mergeInto_id hkey]
    · rw [mergeInto_id (show findingKey e ≠ findingKey f from hef),
        mergeInto_id (show findingKey e ≠ findingKey g from heg),
        mergeInto_id (show findingKey e ≠ findingKey f from hef)]

theorem mergeFinding_pos {r : List Finding} {f : Finding}
    (h : ∃ g ∈ r, findingKey g = findingKey f) :
    mergeFinding r f = r.map (mergeInto f) := by
  rw [mergeFinding, if_pos h]

theorem mergeFinding_neg {r : List Finding} {f : Finding}
    (h : ¬ ∃ g ∈ r, findingKey g = findingKey f) :
    mergeFinding r f = r ++ [f] := by
  rw [mergeFinding, if_neg h]

theorem exists_key_map {r : List Finding} {f g : Finding} :
    (∃ e ∈ r.map (mergeInto f), findingKey e = findingKey g) ↔
      (∃ e ∈ r, findingKey e = findingKey g) := by
  constructor
  · rintro ⟨e, hme, hke⟩
    rcases List.mem_map.mp hme with ⟨e₀, he₀, rfl⟩
    rw [mergeInto_key] at hke
    exact ⟨e₀, he₀, hke⟩
  · rintro ⟨e, he, hke⟩
    exact ⟨mergeInto f e, List.mem_map_of_mem _ he,
      (mergeInto_key f e).trans hke⟩

theorem mergeFinding_swap_aux {r : List Finding} {f g : Finding}
    (hf : ∃ e ∈ r, findingKey e = findingKey f)
    (hg : ¬ ∃ e ∈ r, findingKey e = findingKey g) :
    mergeFinding (mergeFinding r f) g = mergeFinding (mergeFinding r g) f := by
  have hkfg : findingKey g ≠ findingKey f := by
    intro heq
    rcases hf with ⟨e, he, hke⟩
    exact hg ⟨e, he, hke.trans heq.symm⟩
  rw [mergeFinding_pos hf, mergeFinding_neg hg]
  rw [mergeFinding_neg (fun hc => hg (exists_key_map.mp hc))]
  have hf' : ∃ e ∈ r ++ [g], findingKey e = findingKey f := by
    rcases hf with ⟨e, he, hke⟩
    exact ⟨e, List.mem_append.mpr (Or.inl he), hke⟩
  rw [mergeFinding_pos hf', List.map_append]
  simp [mergeInto_id hkfg]

theorem mergeFinding_swap (r : List Finding) (f g : Finding) :
    (mergeFinding (mergeFinding r f) g).Perm
      (mergeFinding (mergeFinding r g) f) := by
  by_cases hf : ∃ e ∈ r, findingKey e = findingKey f
  · by_cases hg : ∃ e ∈ r, findingKey e = findingKey g
    · have heq : mergeFinding (mergeFinding r f) g =
          mergeFinding (mergeFinding r g) f := by
        rw [mergeFinding_pos hf, mergeFinding_pos hg,
          mergeFinding_pos (exists_key_map.mpr hg),
          mergeFinding_pos (exists_key_map.mpr hf), List.map_map,
          List.map_map]
        exact List.map_congr_left fun e _ => mergeInto_comm f g e
      rw [heq]
    · rw [mergeFinding_swap_aux hf hg]
  · by_cases hg : ∃ e ∈ r, findingKey e = findingKey g
    · rw [mergeFinding_swap_aux hg hf]
    · rw [mergeFinding_neg hf, mergeFinding_neg hg]
      by_cases hk : findingKey f = findingKey g
      · have hgf : ∃ e ∈ r ++ [f], findingKey e = findingKey g :=
          ⟨f, List.mem_append.mpr (Or.inr (List.mem_singleton.mpr rfl)), hk⟩
        have hfg : ∃ e ∈ r ++ [g], findingKey e = findingKey f :=
          ⟨g, List.mem_append.mpr (Or.inr (List.mem_singleton.mpr rfl)), hk.symm⟩
        rw [mergeFinding_pos hgf, mergeFinding_pos hfg, List.map_append,
          List.map_append]
        have hr : ∀ e ∈ r, mergeInto g e = e := fun e he =>
          mergeInto_id fun hc => hg ⟨e, he, hc⟩
        have hr' : ∀ e ∈ r, mergeInto f e = e := fun e he =>
          mergeInto_id fun hc => hf ⟨e, he, hc⟩
        rw [List.map_congr_left hr, List.map_congr_left hr']
        have : ([f].map (mergeInto g)) = ([g].map (mergeInto f)) := by
          simp only [List.map_cons, List.map_nil]
          rw [mergeInto_comm₂ hk.symm]
        rw [this]
      · have hgf : ¬ ∃ e ∈ r ++ [f], findingKey e = findingKey g := by
          rintro ⟨e, he, hke⟩
          rcases List.mem_append.mp he with he' | he'
          · exact hg ⟨e, he', hke⟩
          · rw [List.mem_singleton.mp he'] at hke
            exact hk (hke.symm ▸ rfl)
        have hfg : ¬ ∃ e ∈ r ++ [g], findingKey e = findingKey f := by
          rintro ⟨e, he, hke⟩
          rcases List.mem_append.mp he with he' | he'
          · exact hf ⟨e, he', hke⟩
          · rw [List.mem_singleton.mp he'] at hke
            exact hk hke.symm
        rw [mergeFinding_neg hgf, mergeFinding_neg hfg, List.append_assoc,
          List.append_assoc]
        exact List.Perm.append_left r List.perm_append_comm

theorem mergeFinding_perm_congr {r₁ r₂ : List Finding} (h : r₁.Perm r₂)
    (f : Finding) : (mergeFinding r₁ f).Perm (mergeFinding r₂ f) := by
  by_cases hf : ∃ e ∈ r₁, findingKey e = findingKey f
  · have hf₂ : ∃ e ∈ r₂, findingKey e = findingKey f := by
      rcases hf with ⟨e, he, hke⟩
      exact ⟨e, h.mem_iff.mp he, hke⟩
    rw [mergeFinding_pos hf, mergeFinding_pos hf₂]
    exact h.map _
  · have hf₂ : ¬ ∃ e ∈ r₂, findingKey e = findingKey f := by
      rintro ⟨e, he, hke⟩
      exact hf ⟨e, h.mem_iff.mpr he, hke⟩
    rw [mergeFinding_neg hf, mergeFinding_neg hf₂]
    exact h.append_right [f]

theorem foldl_merge_perm_congr :
    ∀ (l : List Finding) {r₁ r₂ : List Finding}, r₁.Perm r₂ →
      (l.foldl mergeFinding r₁).Perm (l.foldl mergeFinding r₂) := by
  intro l
  induction l with
  | nil => intro r₁ r₂ h; exact h
  | cons x l ih =>
    intro r₁ r₂ h
    exact ih (mergeFinding_perm_congr h x)

theorem foldl_merge_perm {l₁ l₂ : List Finding} (h : l₁.Perm l₂) :
    ∀ r, (l₁.foldl mergeFinding r).Perm (l₂.foldl mergeFinding r) := by
  induction h with
  | nil => exact fun r => List.Perm.refl _
  | cons x _h ih => intro r; exact ih (mergeFinding r x)
  | swap x y l => intro r; exact foldl_merge_perm_congr l (mergeFinding_swap r y x)
  | trans _h₁ _h₂ ih₁ ih₂ => intro r; exact (ih₁ r).trans (ih₂ r)

theorem aggregate_perm {l₁ l₂ : List Finding} (h : l₁.Perm l₂) :
    (aggregate l₁).Perm (aggregate l₂) := foldl_merge_perm h []

theorem mergeFinding_nodup {r : List Finding} (h : reportNodupKeys r)
    (f : Finding) : reportNodupKeys (mergeFinding r f) := by
  unfold reportNodupKeys at *
  by_cases hf : ∃ e ∈ r, findingKey e = findingKey f
  · rw [mergeFinding_pos hf]
    refine List.Pairwise.map (mergeInto f) ?_ h
    intro a b hab
    rw [mergeInto_key, mergeInto_key]
    exact hab
  · rw [mergeFinding_neg hf]
    refine List.pairwise_append.mpr ⟨h, List.pairwise_singleton _ _, ?_⟩
    intro a ha b hb
    rw [List.mem_singleton.mp hb]
    exact fun hk => hf ⟨a, ha, hk⟩

theorem foldl_merge_nodup :
    ∀ (l : List Finding) {r : List Finding}, reportNodupKeys r →
      reportNodupKeys (l.foldl mergeFinding r) := by
  intro l
  induction l with
  | nil => intro r h; exact h
  | cons x l ih => intro r h; exact ih (mergeFinding_nodup h x)

theorem aggregate_nodup (l : List Finding) : reportNodupKeys (aggregate l) :=
  foldl_merge_nodup l List.Pairwise.nil

theorem mergeFinding_idem (r : List Finding) (f : Finding) :
    mergeFinding (mergeFinding r f) f = mergeFinding r f := by
  by_cases hf : ∃ e ∈ r, findingKey e = findingKey f
  · rw [mergeFinding_pos hf,
      mergeFinding_pos (exists_key_map.mpr hf), List.map_map]
    exact List.map_congr_left fun e _ => mergeInto_idem f e
  · rw [mergeFinding_neg hf]
    have hf' : ∃ e ∈ r ++ [f], findingKey e = findingKey f :=
      ⟨f, List.mem_append.mpr (Or.inr (List.mem_singleton.mpr rfl)), rfl⟩
    rw [mergeFinding_pos hf', List.map_append]
    have hr : ∀ e ∈ r, mergeInto f e = e := fun e he =>
      mergeInto_id fun hc => hf ⟨e, he, hc⟩
    rw [List.map_congr_left hr]
    simp [mergeInto_self]

theorem mergeFinding_keeps_best {r : List Finding} {f : Finding} :
    ∀ g ∈ mergeFinding r f, findingKey g = findingKey f →
      f.confidence ≤ g.confidence := by
  intro g hg hk
  by_cases hf : ∃ e ∈ r, findingKey e = findingKey f
  · rw [mergeFinding_pos hf] at hg
    rcases List.mem_map.mp hg with ⟨e, _he, rfl⟩
    rw [mergeInto_key] at hk
    by_cases hb : betterFinding f e
    · rw [mergeInto_pos hk hb]
    · rw [mergeInto_neg hb]
      unfold betterFinding at hb
      omega
  · rw [mergeFinding_neg hf] at hg
    rcases List.mem_append.mp hg with hg' | hg'
    · exact absurd ⟨g, hg', hk⟩ hf
    · rw [List.mem_singleton.mp hg']

/-- C6: aggregation is idempotent on finding identity.  Merging the same
finding into an aggregated report twice equals merging it once; the
aggregated report never holds two findings with the same
`(kind, location)` (before or after the extra merge); and among
duplicates the kept entry's confidence is at least the merged finding's
(the highest-confidence instance survives). -/
theorem aggregation_idempotent (l : List Finding) (f : Finding) :
    mergeFinding (mergeFinding (aggregate l) f) f =
      mergeFinding (aggregate l) f ∧
    reportNodupKeys (aggregate l) ∧
    reportNodupKeys (mergeFinding (aggregate l) f) ∧
    (∀ g ∈ mergeFinding (aggregate l) f, findingKey g = findingKey f →
      f.confidence ≤ g.confidence) :=
  ⟨mergeFinding_idem (aggregate l) f, aggregate_nodup l,
    mergeFinding_nodup (aggregate_nodup l) f,
    fun g hg hk => mergeFinding_keeps_best g hg hk⟩

/-- Witness for C6 at a concrete report and finding. -/
theorem aggregation_idempotent_witness :
    mergeFinding (mergeFinding
        (aggregate [⟨FindingKind.reentrancy, 3, 9000, 8000, 1⟩])
        ⟨FindingKind.reentrancy, 3, 9000, 9000, 2⟩)
        ⟨FindingKind.reentrancy, 3, 9000, 9000, 2⟩ =
      mergeFinding (aggregate [⟨FindingKind.reentrancy, 3, 9000, 8000, 1⟩])
        ⟨FindingKind.reentrancy, 3, 9000, 9000, 2⟩ ∧
    reportNodupKeys (aggregate [⟨FindingKind.reentrancy, 3, 9000, 8000, 1⟩]) ∧
    reportNodupKeys (mergeFinding
      (aggregate [⟨FindingKind.reentrancy, 3, 9000, 8000, 1⟩])
      ⟨FindingKind.reentrancy, 3, 9000, 9000, 2⟩) ∧
    (∀ g ∈ mergeFinding (aggregate [⟨FindingKind.reentrancy, 3, 9000, 8000, 1⟩])
        ⟨FindingKind.reentrancy, 3, 9000, 9000, 2⟩,
      findingKey g = findingKey (⟨FindingKind.reentrancy, 3, 9000, 9000, 2⟩ : Finding) →
      (⟨FindingKind.reentrancy, 3, 9000, 9000, 2⟩ : Finding).confidence ≤
        g.confidence) :=
  aggregation_idempotent [⟨FindingKind.reentrancy, 3, 9000, 8000, 1⟩]
    ⟨FindingKind.reentrancy, 3, 9000, 9000, 2⟩

/-- C1: the analysis result is deterministic and independent of
worker-pool scheduling.  For a fixed bytecode and budget, any two
schedules (orders in which the explored paths are handed to the
aggregator) produce the same deduplicated finding set and the same risk
score. -/
theorem analysis_deterministic (code : List Nat) (cap : Nat)
    (sched₁ sched₂ : List Path)
    (h₁ : sched₁.Perm (exploreAll code cap))
    (h₂ : sched₂.Perm (exploreAll code cap)) :
    (buildReport (sched₁.flatMap pathFindings)).findings.Perm
      (buildReport (sched₂.flatMap pathFindings)).findings ∧
    (buildReport (sched₁.flatMap pathFindings)).risk =
      (buildReport (sched₂.flatMap pathFindings)).risk := by
  have hs : sched₁.Perm sched₂ := h₁.trans h₂.symm
  have hfl : (sched₁.flatMap pathFindings).Perm (sched₂.flatMap pathFindings) :=
    hs.flatMap_right pathFindings
  have hagg : (aggregate (sched₁.flatMap pathFindings)).Perm
      (aggregate (sched₂.flatMap pathFindings)) := aggregate_perm hfl
  refine ⟨hagg, ?_⟩
  show riskScore (aggregate (sched₁.flatMap pathFindings)) =
    riskScore (aggregate (sched₂.flatMap pathFindings))
  unfold riskScore
  rw [List.Perm.sum_eq (hagg.map _)]

/-- Witness for C1: the identity schedule of the paths of `STOP`. -/
theorem analysis_deterministic_witness :
    (exploreAll [0x00] 2).Perm (exploreAll [0x00] 2) ∧
    (buildReport ((exploreAll [0x00] 2).flatMap pathFindings)).findings.Perm
      (buildReport ((exploreAll [0x00] 2).flatMap pathFindings)).findings ∧
    (buildReport ((exploreAll [0x00] 2).flatMap pathFindings)).risk =
      (buildReport ((exploreAll [0x00] 2).flatMap pathFindings)).risk :=
  ⟨List.Perm.refl _,
    analysis_deterministic [0x00] 2 (exploreAll [0x00] 2) (exploreAll [0x00] 2)
      (List.Perm.refl _) (List.Perm.refl _)⟩

theorem analyze_hit {cache : List ((String × Bool) × Nat)} {addr : String}
    {deep : Bool} {code : List Nat} {pipeline : Except String Nat} {a : Nat}
    (hc : cacheLookup cache (addr, deep) = some a) :
    analyzeBytecode cache addr deep code pipeline =
      (AnalysisResult.report a, cache) := by
  unfold analyzeBytecode
  rw [hc]

theorem analyze_emptyCode {cache : List ((String × Bool) × Nat)} {addr : String}
    {deep : Bool} {code : List Nat} {pipeline : Except String Nat}
    (hc : cacheLookup cache (addr, deep) = none) (hcode : code = []) :
    analyzeBytecode cache addr deep code pipeline =
      (AnalysisResult.errorDict "No bytecode found", cache) := by
  unfold analyzeBytecode
  simp only [hc]
  rw [if_pos hcode]

theorem analyze_pipelineError {cache : List ((String × Bool) × Nat)}
    {addr : String} {deep : Bool} {code : List Nat} {e : String}
    (hc : cacheLookup cache (addr, deep) = none) (hcode : code ≠ []) :
    analyzeBytecode cache addr deep code (Except.error e) =
      (AnalysisResult.errorDict e, cache) := by
  unfold analyzeBytecode
  simp only [hc]
  rw [if_neg hcode]

theorem analyze_ok {cache : List ((String × Bool) × Nat)} {addr : String}
    {deep : Bool} {code : List Nat} {a : Nat}
    (hc : cacheLookup cache (addr, deep) = none) (hcode : code ≠ []) :
    analyzeBytecode cache addr deep code (Except.ok a) =
      (AnalysisResult.report a, ((addr, deep), a) :: cache) := by
  unfold analyzeBytecode
  simp only [hc]
  rw [if_neg hcode]

/-- C10: the public entry point never propagates an exception — its
value is always a dict: either a report dict or a dict with an `'error'`
key; fetched code `'0x'` (empty) yields `{'error': 'No bytecode found'}`,
and any exception inside the analysis pipeline is caught and returned as
`{'error': str(e)}`. -/
theorem analyze_never_raises (cache : List ((String × Bool) × Nat))
    (addr : String) (deep : Bool) (code : List Nat)
    (pipeline : Except String Nat) :
    ((∃ m, (analyzeBytecode cache addr deep code pipeline).1 =
        AnalysisResult.errorDict m ∧
        hasErrorKey (analyzeBytecode cache addr deep code pipeline).1 = true) ∨
      (∃ a, (analyzeBytecode cache addr deep code pipeline).1 =
        AnalysisResult.report a ∧
        hasErrorKey (analyzeBytecode cache addr deep code pipeline).1 = false)) ∧
    (cacheLookup cache (addr, deep) = none → code = [] →
      (analyzeBytecode cache addr deep code pipeline).1 =
        AnalysisResult.errorDict "No bytecode found") ∧
    (∀ e, cacheLookup cache (addr, deep) = none → code ≠ [] →
      pipeline = Except.error e →
      (analyzeBytecode cache addr deep code pipeline).1 =
        AnalysisResult.errorDict e) := by
  refine ⟨?_, ?_, ?_⟩
  · rcases hc : cacheLookup cache (addr, deep) with _ | a
    · by_cases hcode : code = []
      · rw [analyze_emptyCode hc hcode]
        exact Or.inl ⟨_, rfl, rfl⟩
      · rcases pipeline with e | a
        · rw [analyze_pipelineError hc hcode]
          exact Or.inl ⟨_, rfl, rfl⟩
        · rw [analyze_ok hc hcode]
          exact Or.inr ⟨_, rfl, rfl⟩
    · rw [analyze_hit hc]
      exact Or.inr ⟨_, rfl, rfl⟩
  · intro hc hcode
    rw [analyze_emptyCode hc hcode]
  · intro e hc hcode hp
    rw [hp, analyze_pipelineError hc hcode]

/-- Witness for C10 at empty fetched code. -/
theorem analyze_never_raises_witness :
    ((∃ m, (analyzeBytecode [] "a" false [] (Except.ok 0)).1 =
        AnalysisResult.errorDict m ∧
        hasErrorKey (analyzeBytecode [] "a" false [] (Except.ok 0)).1 = true) ∨
      (∃ a, (analyzeBytecode [] "a" false [] (Except.ok 0)).1 =
        AnalysisResult.report a ∧
        hasErrorKey (analyzeBytecode [] "a" false [] (Except.ok 0)).1 = false)) ∧
    (cacheLookup [] ("a", false) = none → ([] : List Nat) = [] →
      (analyzeBytecode [] "a" false [] (Except.ok 0)).1 =
        AnalysisResult.errorDict "No bytecode found") ∧
    (∀ e, cacheLookup [] ("a", false) = none → ([] : List Nat) ≠ [] →
      Except.ok 0 = Except.error e →
      (analyzeBytecode [] "a" false [] (Except.ok 0)).1 =
        AnalysisResult.errorDict e) :=
  analyze_never_raises [] "a" false [] (Except.ok 0)

/-- C9 (counterexample): the cache is keyed by the address (and the
deep-analysis flag), not by a content hash of the bytecode: two requests
for different addresses holding the same bytecode miss each other and
produce two cache entries. -/
theorem cache_not_content_keyed_counterexample :
    cacheLookup (analyzeBytecode [] "a1" false [0x00] (Except.ok 7)).2
      ("a2", false) = none ∧
    ((analyzeBytecode (analyzeBytecode [] "a1" false [0x00] (Except.ok 7)).2
      "a2" false [0x00] (Except.ok 7)).2).length = 2 := by decide

/-- C9 (amended): the cache is keyed by `(contract_address, deep)`.  A
hit returns the stored entry and leaves the cache untouched (entries are
never overwritten after being written, because the hit check precedes
any write); a miss on a successful analysis appends exactly one entry,
which later lookups of the same key return; the cache has no capacity
bound or eviction — every distinct key grows it by one. -/
theorem cache_address_keyed (cache : List ((String × Bool) × Nat))
    (addr : String) (deep : Bool) (code : List Nat)
    (pipeline : Except String Nat) (a : Nat) :
    (cacheLookup cache (addr, deep) = some a →
      analyzeBytecode cache addr deep code pipeline =
        (AnalysisResult.report a, cache)) ∧
    (cacheLookup cache (addr, deep) = none → code ≠ [] →
      pipeline = Except.ok a →
      (analyzeBytecode cache addr deep code pipeline).2 =
        ((addr, deep), a) :: cache ∧
      cacheLookup (analyzeBytecode cache addr deep code pipeline).2
        (addr, deep) = some a ∧
      ((analyzeBytecode cache addr deep code pipeline).2).length =
        cache.length + 1) := by
  constructor
  · intro hc
    exact analyze_hit hc
  · intro hc hcode hp
    rw [hp, analyze_ok hc hcode]
    refine ⟨rfl, ?_, by simp⟩
    simp [cacheLookup, List.find?_cons_of_pos]

/-- Witness for C9 (amended): hit and miss behaviour at a one-entry
cache. -/
theorem cache_address_keyed_witness :
    (cacheLookup [(("a1", false), 7)] ("a1", false) = some 7 →
      analyzeBytecode [(("a1", false), 7)] "a1" false [0x00] (Except.ok 7) =
        (AnalysisResult.report 7, [(("a1", false), 7)])) ∧
    (cacheLookup [(("a1", false), 7)] ("a1", false) = none → ([0x00] : List Nat) ≠ [] →
      (Except.ok 7 : Except String Nat) = Except.ok 7 →
      (analyzeBytecode [(("a1", false), 7)] "a1" false [0x00] (Except.ok 7)).2 =
        (("a1", false), 7) :: [(("a1", false), 7)] ∧
      cacheLookup (analyzeBytecode [(("a1", false), 7)] "a1" false [0x00]
        (Except.ok 7)).2 ("a1", false) = some 7 ∧
      ((analyzeBytecode [(("a1", false), 7)] "a1" false [0x00]
        (Except.ok 7)).2).length = [(("a1", false), 7)].length + 1) :=
  cache_address_keyed [(("a1", false), 7)] "a1" false [0x00] (Except.ok 7) 7

/-- C7 (counterexample): an internal failure that is not an input error
aborts the whole request.  A pipeline exception on non-empty bytecode —
e.g. the `AttributeError` the undefined `self.functions` at
bytecode_analyzer.py:93 raises on every fresh analysis — is caught at
the top level and returned as an `'error'` dict: the request yields no
partial result, although the input was well-formed. -/
theorem only_input_errors_fatal_counterexample :
    ([0x00] : List Nat) ≠ [] ∧
    (analyzeBytecode [] "addr" true [0x00]
      (Except.error "AttributeError")).1 =
      AnalysisResult.errorDict "AttributeError" ∧
    ¬ ∃ a, (analyzeBytecode [] "addr" true [0x00]
      (Except.error "AttributeError")).1 = AnalysisResult.report a := by
  refine ⟨by decide, by decide, ?_⟩
  rintro ⟨a, ha⟩
  rw [analyze_pipelineError (by decide) (by decide)] at ha
  cases ha

/-- C7 (amended): inside the security scan every check runs in its own
try/except, so a failing check is skipped while every successful check's
result is kept — per-check failures degrade to a partial scan and never
raise; but at the top level any pipeline failure (not only input errors)
aborts the request with an `'error'` dict. -/
theorem security_scan_degrades
    (outcomes : List (String × Except String CheckResult)) :
    (∀ name r, (name, Except.ok r) ∈ outcomes →
      (name, r) ∈ (enhancedSecurityScan outcomes).checkResults) ∧
    (∀ name r, (name, r) ∈ (enhancedSecurityScan outcomes).checkResults →
      (name, Except.ok r) ∈ outcomes) ∧
    (∀ name e, (name, Except.error e) ∈ outcomes →
      (∀ o, (name, o) ∈ outcomes → o = Except.error e) →
      ∀ r, (name, r) ∉ (enhancedSecurityScan outcomes).checkResults) ∧
    (∀ name r, (name, r) ∈ (enhancedSecurityScan outcomes).checkResults →
      r.vulnerable = true →
      r ∈ (enhancedSecurityScan outcomes).vulnerabilities) := by
  have hmem : ∀ name r,
      (name, r) ∈ (enhancedSecurityScan outcomes).checkResults ↔
        (name, Except.ok r) ∈ outcomes := by
    intro name r
    show (name, r) ∈ outcomes.filterMap _ ↔ _
    rw [List.mem_filterMap]
    constructor
    · rintro ⟨⟨name', o⟩, ho, heq⟩
      rcases o with e | r'
      · cases heq
      · simp only [Option.some.injEq, Prod.mk.injEq] at heq
        rw [← heq.1, ← heq.2]
        exact ho
    · intro ho
      exact ⟨(name, Except.ok r), ho, rfl⟩
  refine ⟨fun name r h => (hmem name r).mpr h,
    fun name r h => (hmem name r).mp h, ?_, ?_⟩
  · intro name e _he huniq r hr
    have := huniq (Except.ok r) ((hmem name r).mp hr)
    cases this
  · intro name r hr hv
    show r ∈ ((enhancedSecurityScan outcomes).checkResults.map Prod.snd).filter _
    rw [List.mem_filter]
    exact ⟨List.mem_map_of_mem Prod.snd hr, by rw [hv]⟩

/-- Witness for C7 (amended): a failing check is skipped while the
successful one is kept. -/
theorem security_scan_degrades_witness :
    ("reentrancy", (⟨true, 9000, 9000⟩ : CheckResult)) ∈
      (enhancedSecurityScan [("reentrancy", Except.ok ⟨true, 9000, 9000⟩),
        ("overflow", Except.error "boom")]).checkResults :=
  (security_scan_degrades [("reentrancy", Except.ok ⟨true, 9000, 9000⟩),
    ("overflow", Except.error "boom")]).1 "reentrancy" ⟨true, 9000, 9000⟩
    (List.mem_cons_self _ _)

theorem direct_collisions_single {I : List (Nat × SlotShape)} {n : Nat} :
    ∀ (P : List (Nat × SlotShape)), (P.map Prod.fst).Nodup →
      (n, SlotShape.scalar) ∈ P →
      (∀ p ∈ P, p.1 ≠ n → I.find? (fun q => q.1 == p.1) = none) →
      I.find? (fun q => q.1 == n) = some (n, SlotShape.mapping) →
      (P.filterMap fun p =>
        match I.find? (fun q => q.1 == p.1) with
        | some q => some (⟨p.1, p.2, q.2⟩ : Collision)
        | none => none) = [⟨n, SlotShape.scalar, SlotShape.mapping⟩] := by
  intro P
  induction P with
  | nil =>
    intro _ hmem
    simp at hmem
  | cons p P' ih =>
    intro hnodup hmem hothers hI
    rw [List.map_cons, List.nodup_cons] at hnodup
    by_cases hp : p.1 = n
    · have hpn : p = (n, SlotShape.scalar) := by
        rcases List.mem_cons.mp hmem with h | h
        · exact h.symm
        · exfalso
          refine hnodup.1 ?_
          rw [hp]
          exact List.mem_map_of_mem Prod.fst h
      subst hpn
      rw [List.filterMap_cons]
      simp only [hI]
      have hrest : (P'.filterMap fun p =>
          match I.find? (fun q => q.1 == p.1) with
          | some q => some (⟨p.1, p.2, q.2⟩ : Collision)
          | none => none) = [] := by
        rw [List.filterMap_eq_nil]
        intro p' hp'
        have hne : p'.1 ≠ n := by
          intro he
          refine hnodup.1 ?_
          show n ∈ P'.map Prod.fst
          rw [← he]
          exact List.mem_map_of_mem Prod.fst hp'
        rw [hothers p' (List.mem_cons_of_mem _ hp') hne]
      rw [hrest]
    · rw [List.filterMap_cons]
      have hfind := hothers p (List.mem_cons_self _ _) hp
      simp only [hfind]
      refine ih hnodup.2 ?_ (fun p' hp' hne =>
        hothers p' (List.mem_cons_of_mem _ hp') hne) hI
      rcases List.mem_cons.mp hmem with h | h
      · exact absurd (congrArg Prod.fst h.symm) hp
      · exact h

/-- C8: the storage-collision comparison is a pure, order-insensitive
function of the two supplied slot sets; and when the two sets share
exactly one concrete slot index, carried as Scalar in one and Mapping in
the other, the comparison produces exactly one collision record, it
references that slot with those shapes, and the risk level is HIGH. -/
theorem storage_collision_comparison (P I : List (Nat × SlotShape)) (n : Nat)
    (hnodup : (P.map Prod.fst).Nodup)
    (hmem : (n, SlotShape.scalar) ∈ P)
    (hothers : ∀ p ∈ P, p.1 ≠ n → I.find? (fun q => q.1 == p.1) = none)
    (hI : I.find? (fun q => q.1 == n) = some (n, SlotShape.mapping)) :
    (checkStorageCollisions P I).directCollisions =
      [⟨n, SlotShape.scalar, SlotShape.mapping⟩] ∧
    (checkStorageCollisions P I).riskLevel = "HIGH" ∧
    (∀ P₁ P₂ : List (Nat × SlotShape), P₁.Perm P₂ →
      ((checkStorageCollisions P₁ I).directCollisions).Perm
        ((checkStorageCollisions P₂ I).directCollisions)) := by
  have hdir : (checkStorageCollisions P I).directCollisions =
      [⟨n, SlotShape.scalar, SlotShape.mapping⟩] :=
    direct_collisions_single P hnodup hmem hothers hI
  refine ⟨hdir, ?_, ?_⟩
  · show (if (checkStorageCollisions P I).directCollisions ≠ [] then "HIGH"
      else if ([] : List Collision) ≠ [] then "MEDIUM" else "LOW") = "HIGH"
    rw [hdir]
    simp
  · intro P₁ P₂ hperm
    exact hperm.filterMap _

/-- Witness for C8 at one-slot proxy and implementation sets sharing
slot 5 with conflicting shapes. -/
theorem storage_collision_comparison_witness :
    (checkStorageCollisions [(5, SlotShape.scalar)] [(5, SlotShape.mapping)]).directCollisions =
      [⟨5, SlotShape.scalar, SlotShape.mapping⟩] ∧
    (checkStorageCollisions [(5, SlotShape.scalar)] [(5, SlotShape.mapping)]).riskLevel = "HIGH" ∧
    (∀ P₁ P₂ : List (Nat × SlotShape), P₁.Perm P₂ →
      ((checkStorageCollisions P₁ [(5, SlotShape.mapping)]).directCollisions).Perm
        ((checkStorageCollisions P₂ [(5, SlotShape.mapping)]).directCollisions)) :=
  storage_collision_comparison [(5, SlotShape.scalar)] [(5, SlotShape.mapping)] 5
    (by decide) (by decide) (by decide) (by decide)

end BytecodeAnalysis
